import Mathlib

/-!
Verification development for the VectorLite embedded vector store
(`pkg/storage/db.go`, `pkg/storage/types.go`, `pkg/storage/cache.go`).

The on-disk state is modelled at the byte level: a file is a `List Nat`
of byte values, little-endian words are encoded and decoded exactly as
`encoding/binary` does, and 32-bit float payloads are carried as their
bit patterns (natural numbers below `2^32`), since every storage-level
property of the store is bitwise.  The Go `map[uint64]int64` index is
modelled as an association list with Go map assignment semantics
(`mapInsert` overwrites the binding of an existing key).  The similarity
search path, which computes on decoded float values, is modelled
separately over real numbers.
-/

set_option maxHeartbeats 1000000
set_option maxRecDepth 100000

deriving instance DecidableEq for Except

namespace VectorLite

/-- Error kinds surfaced by the storage package: `ErrNotFound`,
`ErrInvalidFormat`, `ErrDimensionMismatch` from `db.go`, plus `io` for
errors propagated from the operating system (file and mmap calls). -/
inductive Err where
  | notFound
  | invalidFormat
  | dimensionMismatch
  | io
  deriving DecidableEq, Repr

/-- Byte `i` of a byte list; reads past the end yield 0 (never relied
upon by any theorem whose hypotheses keep accesses in bounds). -/
def getByte (f : List Nat) (i : Nat) : Nat := f.getD i 0

/-- Little-endian 4-byte encoding of a 32-bit value, as
`binary.LittleEndian.PutUint32` writes it. -/
def putU32 (n : Nat) : List Nat :=
  [n % 256, n / 2 ^ 8 % 256, n / 2 ^ 16 % 256, n / 2 ^ 24 % 256]

/-- Little-endian 8-byte encoding of a 64-bit value, as
`binary.LittleEndian.PutUint64` writes it. -/
def putU64 (n : Nat) : List Nat :=
  [n % 256, n / 2 ^ 8 % 256, n / 2 ^ 16 % 256, n / 2 ^ 24 % 256,
   n / 2 ^ 32 % 256, n / 2 ^ 40 % 256, n / 2 ^ 48 % 256, n / 2 ^ 56 % 256]

/-- Little-endian 32-bit read at offset `off`, as
`binary.LittleEndian.Uint32` reads it. -/
def readU32 (f : List Nat) (off : Nat) : Nat :=
  getByte f off + 2 ^ 8 * getByte f (off + 1) +
    2 ^ 16 * getByte f (off + 2) + 2 ^ 24 * getByte f (off + 3)

/-- Little-endian 64-bit read at offset `off`, as
`binary.LittleEndian.Uint64` reads it. -/
def readU64 (f : List Nat) (off : Nat) : Nat :=
  getByte f off + 2 ^ 8 * getByte f (off + 1) +
    2 ^ 16 * getByte f (off + 2) + 2 ^ 24 * getByte f (off + 3) +
    2 ^ 32 * getByte f (off + 4) + 2 ^ 40 * getByte f (off + 5) +
    2 ^ 48 * getByte f (off + 6) + 2 ^ 56 * getByte f (off + 7)

/-- The FNV-1a offset basis used by `hash/fnv`. -/
def fnvOffsetBasis : Nat := 14695981039346656037

/-- The FNV-1a 64-bit prime used by `hash/fnv`. -/
def fnvPrime : Nat := 1099511628211

/-- One byte step of the 64-bit FNV-1a hash: XOR the byte in, multiply
by the prime, truncate to 64 bits. -/
def fnvStep (h b : Nat) : Nat := ((h ^^^ b) * fnvPrime) % 2 ^ 64

/-- `HashText` from `types.go`: the 64-bit FNV-1a hash of the key bytes. -/
def fnv1a (key : List Nat) : Nat := key.foldl fnvStep fnvOffsetBasis

/-- `MagicBytes = "EDB\x00"` as byte values. -/
def magicBytes : List Nat := [69, 68, 66, 0]

/-- `HeaderSize` from `types.go`. -/
def headerSize : Nat := 256

/-- `RecordMetaSize` from `types.go`: hash (8) + dimension (4) + reserved (4). -/
def recordMetaSize : Nat := 16

/-- `IndexEntrySize` from `types.go`: hash (8) + offset (8). -/
def indexEntrySize : Nat := 16

/-- The `Header` struct from `types.go`. -/
structure Header where
  magic : List Nat
  version : Nat
  dimension : Nat
  recordCount : Nat
  indexOffset : Nat
  dataOffset : Nat
  deriving DecidableEq, Repr

/-- `Header.Encode` from `types.go`: 256 bytes, fields little-endian,
the 220 reserved bytes zero. -/
def encodeHeader (h : Header) : List Nat :=
  h.magic.take 4 ++ List.replicate (4 - h.magic.length) 0 ++
    putU32 h.version ++ putU32 h.dimension ++ putU64 h.recordCount ++
    putU64 h.indexOffset ++ putU64 h.dataOffset ++ List.replicate 220 0

/-- `DecodeHeader` from `types.go`: reads the six declared fields and
ignores everything past byte 36. -/
def decodeHeader (buf : List Nat) : Header :=
  { magic := [getByte buf 0, getByte buf 1, getByte buf 2, getByte buf 3]
    version := readU32 buf 4
    dimension := readU32 buf 8
    recordCount := readU64 buf 12
    indexOffset := readU64 buf 20
    dataOffset := readU64 buf 28 }

/-- `NewHeader` from `types.go`: fresh version-2 header. -/
def newHeader (dimension : Nat) : Header :=
  { magic := magicBytes
    version := 2
    dimension := dimension
    recordCount := 0
    indexOffset := 0
    dataOffset := headerSize }

/-- The record buffer built by `Insert` in `db.go`: hash, dimension,
four zero reserved bytes, then the payload words little-endian. -/
def encodeRecord (hash : Nat) (v : List Nat) : List Nat :=
  putU64 hash ++ putU32 v.length ++ putU32 0 ++ (v.map putU32).flatten

/-- `EncodeIndexEntry` from `types.go`: 8-byte hash then 8-byte offset. -/
def encodeIndexEntry (hash off : Nat) : List Nat := putU64 hash ++ putU64 off

/-- Go map assignment `m[k] = v` on an association-list model: overwrite
the binding if the key is present, otherwise append it. -/
def mapInsert (l : List (Nat × Nat)) (k v : Nat) : List (Nat × Nat) :=
  if (List.lookup k l).isSome then
    l.map (fun e => if e.1 = k then (k, v) else e)
  else l ++ [(k, v)]

/-- The `LRUCache` from `cache.go`, generic in the stored payload (the
code never inspects the vectors it stores).  `entries` is kept in
recency order, most recently used first, mirroring the front of
`container/list`. -/
structure LRU (α : Type) where
  capacity : Nat
  entries : List (Nat × α)
  deriving DecidableEq, Repr

/-- `LRUCache.Get`: on a hit, move the entry to the front and return its
payload; a miss changes nothing. -/
def lruGet {α : Type} (c : LRU α) (h : Nat) : Option α × LRU α :=
  match List.lookup h c.entries with
  | some v => (some v, { c with entries := (h, v) :: c.entries.eraseP (fun e => e.1 == h) })
  | none => (none, c)

/-- `LRUCache.Put`: replace-and-promote on an existing key; otherwise
push to the front and, if the length now exceeds `capacity`, evict the
back entry.  The second component reports the evicted key, mirroring the
entry removed by `evict`. -/
def lruPut {α : Type} (c : LRU α) (h : Nat) (v : α) : LRU α × Option Nat :=
  match List.lookup h c.entries with
  | some _ => ({ c with entries := (h, v) :: c.entries.eraseP (fun e => e.1 == h) }, none)
  | none =>
    let entries := (h, v) :: c.entries
    if c.capacity < entries.length then
      ({ c with entries := entries.dropLast }, (entries.getLast?).map Prod.fst)
    else ({ c with entries := entries }, none)

/-- `os.File.WriteAt` semantics on the byte-list file model: overwrite
`buf.length` bytes starting at `off`, zero-filling any gap past the old
end of file. -/
def writeAt (f : List Nat) (off : Nat) (buf : List Nat) : List Nat :=
  f.take off ++ List.replicate (off - f.length) 0 ++ buf ++ f.drop (off + buf.length)

/-- The `DB` struct from `db.go`.  `mmap = some m` models a live mapping
of the whole file; `fileClosed` models whether the underlying
`os.File` descriptor has been closed (the Go struct has no such field —
a closed descriptor is only observable through `os` errors). -/
structure DBModel where
  file : List Nat
  mmap : Option (List Nat)
  header : Header
  index : List (Nat × Nat)
  cache : LRU (List Nat)
  dataEnd : Nat
  dimension : Nat
  fileClosed : Bool
  deriving DecidableEq, Repr

/-- `create` from `db.go`: write a fresh version-2 header; data starts
right after it.  `cacheSize` 0 defaults to 100 as in `OpenWithOptions`. -/
def createDB (dimension : Nat) (cacheSize : Nat) : DBModel :=
  { file := encodeHeader (newHeader dimension)
    mmap := none
    header := newHeader dimension
    index := []
    cache := { capacity := if cacheSize = 0 then 100 else cacheSize, entries := [] }
    dataEnd := headerSize
    dimension := dimension
    fileClosed := false }

/-- `buildIndexFromSection` from `db.go`: decode
`(fileSize - indexOffset) / 16` entries and assign each into the map in
order.  The in-loop bounds check mirrors the source's `break`; it can
never fire for `i` below the computed entry count. -/
def buildIndexFromSection (m : List Nat) (idxOff : Nat) : List (Nat × Nat) :=
  (List.range ((m.length - idxOff) / 16)).foldl
    (fun acc i =>
      let o := idxOff + 16 * i
      if m.length < o + 16 then acc
      else mapInsert acc (readU64 m o) (readU64 m (o + 8)))
    []

/-- The loop body of `buildIndexLegacy`, driven by explicit fuel so the
recursion is structural (the Go loop terminates because every record
advances the offset by at least 16 bytes, so `m.length + 1` iterations
always suffice). -/
def legacyScanGo (fuel : Nat) (m : List Nat) (off : Nat) (acc : List (Nat × Nat)) :
    List (Nat × Nat) :=
  match fuel with
  | 0 => acc
  | fuel + 1 =>
    if off + 16 ≤ m.length then
      legacyScanGo fuel m (off + 16 + 4 * readU32 m (off + 8))
        (mapInsert acc (readU64 m off) off)
    else acc

/-- `buildIndexLegacy` from `db.go`: walk the data section from byte
256, record `(hash, offset)` for each record and advance by
`16 + 4 * dim`; stop when fewer than 16 bytes remain. -/
def buildIndexLegacy (m : List Nat) (off : Nat) (acc : List (Nat × Nat)) :
    List (Nat × Nat) :=
  legacyScanGo (m.length + 1) m off acc

/-- `open` from `db.go` on an existing file: read and decode the header,
check the magic, check the dimension, and when the file is longer than
the header mmap it and build the index.  `dataEnd` comes from
`indexOffset` for indexed version-2 files and the file size otherwise. -/
def openDB (file : List Nat) (dimension : Nat) (cacheSize : Nat) :
    Except Err DBModel :=
  if file.length < headerSize then .error .io
  else
    let hdr := decodeHeader file
    if hdr.magic ≠ magicBytes then .error .invalidFormat
    else if hdr.dimension ≠ dimension then .error .dimensionMismatch
    else
      let cache : LRU (List Nat) :=
        { capacity := if cacheSize = 0 then 100 else cacheSize, entries := [] }
      if headerSize < file.length then
        let sectionMode := 2 ≤ hdr.version ∧ 0 < hdr.indexOffset
        let idx := if sectionMode then buildIndexFromSection file hdr.indexOffset
                   else buildIndexLegacy file headerSize []
        .ok { file := file
              mmap := some file
              header := hdr
              index := idx
              cache := cache
              dataEnd := if sectionMode then hdr.indexOffset else file.length
              dimension := dimension
              fileClosed := false }
      else
        .ok { file := file
              mmap := none
              header := hdr
              index := []
              cache := cache
              dataEnd := headerSize
              dimension := dimension
              fileClosed := false }

/-- `Insert` from `db.go`: reject wrong-length vectors, no-op when the
key hash is already indexed, otherwise write one record at `dataEnd`,
extend the index and counters, and remap.  A write on a closed
descriptor surfaces the operating-system error. -/
def dbInsert (db : DBModel) (key : List Nat) (v : List Nat) :
    Except Err Unit × DBModel :=
  if v.length ≠ db.dimension then (.error .dimensionMismatch, db)
  else
    let h := fnv1a key
    match List.lookup h db.index with
    | some _ => (.ok (), db)
    | none =>
      if db.fileClosed then (.error .io, db)
      else
        let buf := encodeRecord h v
        let off := db.dataEnd
        let file' := writeAt db.file off buf
        (.ok (),
          { db with
            file := file'
            index := db.index ++ [(h, off)]
            header := { db.header with recordCount := db.header.recordCount + 1 }
            dataEnd := off + (recordMetaSize + 4 * v.length)
            mmap := if headerSize < file'.length then some file' else none })

/-- `readVector` from `db.go`: with no mapping fail with `NotFound`;
otherwise read the record's own dimension field and decode that many
little-endian words starting 16 bytes past the record offset. -/
def readVector (db : DBModel) (off : Nat) : Except Err (List Nat) :=
  match db.mmap with
  | none => .error .notFound
  | some m =>
    let dim := readU32 m (off + 8)
    .ok ((List.range dim).map (fun i => readU32 m (off + recordMetaSize + 4 * i)))

/-- `Get` from `db.go`: probe the LRU first; on a miss consult the index
map, decode the record from the mapping, and cache the decoded vector. -/
def dbGet (db : DBModel) (key : List Nat) : Except Err (List Nat) × DBModel :=
  let h := fnv1a key
  match lruGet db.cache h with
  | (some v, cache') => (.ok v, { db with cache := cache' })
  | (none, _) =>
    match List.lookup h db.index with
    | none => (.error .notFound, db)
    | some off =>
      match readVector db off with
      | .error e => (.error e, db)
      | .ok v => (.ok v, { db with cache := (lruPut db.cache h v).1 })

/-- The entry-writing loop of `writeIndexSection`: write each 16-byte
entry at the running offset. -/
def writeEntries (f : List Nat) (off : Nat) (entries : List (Nat × Nat)) :
    List Nat :=
  match entries with
  | [] => f
  | e :: rest => writeEntries (writeAt f off (encodeIndexEntry e.1 e.2)) (off + 16) rest

/-- `Close` from `db.go`: for a version-2 store with a non-empty index,
write the index section at `dataEnd`, truncate to its end and point
`indexOffset` at it (`writeIndexSection`), then rewrite the header at
offset 0 and close the descriptor.  On an already-closed descriptor the
first file operation fails with the operating-system error. -/
def dbClose (db : DBModel) : Except Err Unit × DBModel :=
  if db.fileClosed then (.error .io, db)
  else if 0 < db.index.length ∧ 2 ≤ db.header.version then
    let f1 := writeEntries db.file db.dataEnd db.index
    let f2 := f1.take (db.dataEnd + 16 * db.index.length)
    let hdr' := { db.header with indexOffset := db.dataEnd }
    let f3 := writeAt f2 0 (encodeHeader hdr')
    (.ok (), { db with file := f3, header := hdr', fileClosed := true })
  else
    let f3 := writeAt db.file 0 (encodeHeader db.header)
    (.ok (), { db with file := f3, fileClosed := true })

/-- Insert a list of `(key, vector)` pairs in order, stopping at the
first error (each Go call site checks the returned error). -/
def insertAll (db : DBModel) (ps : List (List Nat × List Nat)) :
    Except Err DBModel :=
  match ps with
  | [] => .ok db
  | p :: rest =>
    match dbInsert db p.1 p.2 with
    | (.ok _, db') => insertAll db' rest
    | (.error e, _) => .error e

/-- `cosineSimilarity` from `db.go`, idealized over the reals (the Go
code computes in `float32` with a `float64` square root): `-1` on a
length mismatch, `0` when either norm is zero, otherwise
`dot / (sqrt normA * sqrt normB)`. -/
noncomputable def cosineSimilarity (a b : List ℝ) : ℝ :=
  if a.length ≠ b.length then -1
  else
    let dotProduct := (a.zip b).foldl (fun s p => s + p.1 * p.2) 0
    let normA := a.foldl (fun s x => s + x * x) 0
    let normB := b.foldl (fun s x => s + x * x) 0
    if normA = 0 ∨ normB = 0 then 0
    else dotProduct / (Real.sqrt normA * Real.sqrt normB)

/-- One iteration of the `FindSimilar` scan loop: replace the tracked
pair when this record scores strictly higher than the current best. -/
noncomputable def bestStep (q : List ℝ) (acc : List ℝ × ℝ) (v : List ℝ) :
    List ℝ × ℝ :=
  let score := cosineSimilarity q v
  if acc.2 < score then (v, score) else acc

/-- The scan loop of `FindSimilar`: starting from `(nil, -1)`, replace
the tracked pair whenever a record scores strictly higher than the
current best.  `records` is the list of decoded stored vectors in
snapshot iteration order. -/
noncomputable def findBest (records : List (List ℝ)) (q : List ℝ) :
    List ℝ × ℝ :=
  records.foldl (bestStep q) ([], -1)

/-- `FindSimilar` from `db.go` over the decoded record vectors: reject a
query of the wrong length, scan all records for the best cosine score,
and return the tracked pair when the best score reaches the threshold,
`NotFound` otherwise. -/
noncomputable def findSimilar (records : List (List ℝ)) (q : List ℝ)
    (threshold : ℝ) (dimension : Nat) : Except Err (List ℝ × ℝ) :=
  if q.length ≠ dimension then .error .dimensionMismatch
  else
    let best := findBest records q
    if threshold ≤ best.2 then .ok best else .error .notFound

/-- State for the slice-identity model of the read path: Go slices are
references, so decoded vectors live in a `heap` of allocations and the
LRU stores heap addresses, exactly as `cache.go` stores `[]float32`
headers. -/
structure RefState where
  heap : List (List Nat)
  cache : LRU Nat
  index : List (Nat × Nat)
  mmapBytes : Option (List Nat)
  deriving DecidableEq, Repr

/-- `Get` from `db.go` with slice identity made explicit.  A cache hit
returns the address held by the cache (`return cached, nil` returns the
stored slice, not a copy).  A miss decodes the record into a fresh
allocation (`make([]float32, dim)`) and both caches and returns that
same address. -/
def dbGetRef (st : RefState) (key : List Nat) : Except Err Nat × RefState :=
  let h := fnv1a key
  match lruGet st.cache h with
  | (some addr, cache') => (.ok addr, { st with cache := cache' })
  | (none, _) =>
    match List.lookup h st.index with
    | none => (.error .notFound, st)
    | some off =>
      match st.mmapBytes with
      | none => (.error .notFound, st)
      | some m =>
        let dim := readU32 m (off + 8)
        let v := (List.range dim).map (fun i => readU32 m (off + recordMetaSize + 4 * i))
        let addr := st.heap.length
        (.ok addr, { st with heap := st.heap ++ [v], cache := (lruPut st.cache h addr).1 })

/-- The vector decoded by `readVector` from mapping bytes `m` at record
offset `off`. -/
def decodeVec (m : List Nat) (off : Nat) : List Nat :=
  (List.range (readU32 m (off + 8))).map
    (fun i => readU32 m (off + recordMetaSize + 4 * i))

/-- `DecodeIndexEntry` from `types.go` on a 16-byte buffer. -/
def decodeIndexEntry (buf : List Nat) : Nat × Nat := (readU64 buf 0, readU64 buf 8)

/-- The byte image of a list of index entries, as `writeIndexSection`
lays them out contiguously. -/
def entriesBytes (entries : List (Nat × Nat)) : List Nat :=
  (entries.map (fun e => encodeIndexEntry e.1 e.2)).flatten

/-- The `(hash, offset)` entries decoded by the section-mode index
build, in scan order (including duplicates). -/
def sectionEntryList (m : List Nat) (idxOff : Nat) : List (Nat × Nat) :=
  (List.range ((m.length - idxOff) / 16)).map
    (fun i => (readU64 m (idxOff + 16 * i), readU64 m (idxOff + 16 * i + 8)))

/-- Fuel-driven companion of `legacyScanGo` that records the entries
visited, in scan order (including duplicates). -/
def scanEntryListGo (fuel : Nat) (m : List Nat) (off : Nat) : List (Nat × Nat) :=
  match fuel with
  | 0 => []
  | fuel + 1 =>
    if off + 16 ≤ m.length then
      (readU64 m off, off) :: scanEntryListGo fuel m (off + 16 + 4 * readU32 m (off + 8))
    else []

/-- The `(hash, offset)` entries visited by the legacy data-section
scan, in scan order (including duplicates). -/
def scanEntryList (m : List Nat) (off : Nat) : List (Nat × Nat) :=
  scanEntryListGo (m.length + 1) m off

/-- The value bound to `h` by the last entry for `h` in scan order, if
any. -/
def lastAssoc (l : List (Nat × Nat)) (h : Nat) : Option Nat :=
  match l with
  | [] => none
  | e :: rest =>
    match lastAssoc rest h with
    | some v => some v
    | none => if e.1 == h then some e.2 else none

/-- One operation against the standalone LRU cache. -/
inductive CacheOp where
  | put (k : Nat) (v : List Nat)
  | get (k : Nat)
  deriving DecidableEq, Repr

/-- Apply one cache operation, discarding the returned value. -/
def applyOp (c : LRU (List Nat)) (op : CacheOp) : LRU (List Nat) :=
  match op with
  | .put k v => (lruPut c k v).1
  | .get k => (lruGet c k).2

/-- Run a sequence of cache operations from a given cache. -/
def runOps (c : LRU (List Nat)) (ops : List CacheOp) : LRU (List Nat) :=
  ops.foldl applyOp c

/-- A fresh cache of the given capacity. -/
def emptyLRU (capacity : Nat) : LRU (List Nat) := { capacity := capacity, entries := [] }

/-- Modelled from the spec (P5): the distinct keys in order of most
recent touch, where a touch is a `put` or a `get` that hits (a key is
present exactly when it is among the first `capacity` entries of this
list). -/
def touchOrder (capacity : Nat) (ops : List CacheOp) : List Nat :=
  ops.foldl
    (fun rec op =>
      match op with
      | .put k _ => k :: rec.erase k
      | .get k => if k ∈ rec.take capacity then k :: rec.erase k else rec)
    []

/-- Size in bytes of one record of dimension `D`. -/
def recSize (D : Nat) : Nat := recordMetaSize + 4 * D

/-- Concatenated record bytes for a list of `(key, vector)` pairs in
insertion order. -/
def recordsBytes (ps : List (List Nat × List Nat)) : List Nat :=
  (ps.map (fun p => encodeRecord (fnv1a p.1) p.2)).flatten

/-- The index built by a fresh run of inserts: each pair's hash bound to
the running record offset. -/
def indexOfPairs (ps : List (List Nat × List Nat)) (off : Nat) : List (Nat × Nat) :=
  match ps with
  | [] => []
  | p :: rest =>
    (fnv1a p.1, off) :: indexOfPairs rest (off + (recordMetaSize + 4 * p.2.length))

/-- Closed form of the engine state reached by inserting `ps` (all of
dimension `D`, hashes pairwise distinct, no failures) into a freshly
created store. -/
def freshState (D cs : Nat) (ps : List (List Nat × List Nat)) : DBModel :=
  let file := encodeHeader (newHeader D) ++ recordsBytes ps
  { file := file
    mmap := if ps = [] then none else some file
    header := { newHeader D with recordCount := ps.length }
    index := indexOfPairs ps headerSize
    cache := { capacity := if cs = 0 then 100 else cs, entries := [] }
    dataEnd := headerSize + (recordsBytes ps).length
    dimension := D
    fileClosed := false }

/-- Claim C1 as stated: for every valid dimension and every sequence of
distinct keys with vectors of that dimension, inserting all pairs into a
fresh engine makes every `Get` return its vector bitwise. -/
def c1Claim : Prop :=
  ∀ (D : Nat), 1 ≤ D → ∀ (cs : Nat) (ps : List (List Nat × List Nat)),
    (∀ p ∈ ps, (∀ b ∈ p.1, b < 256) ∧ p.2.length = D ∧ ∀ x ∈ p.2, x < 2 ^ 32) →
    ps.Pairwise (fun p q => p.1 ≠ q.1) →
    ∃ db, insertAll (createDB D cs) ps = .ok db ∧
      ∀ p ∈ ps, (dbGet db p.1).1 = .ok p.2

/-- Byte string of the key used in the concrete scenarios. -/
def keyA : List Nat := [97]

/-- A store created at dimension 1 holding the single record
`keyA ↦ [5]`. -/
def oneRecordDB : DBModel := (dbInsert (createDB 1 100) keyA [5]).2

/-- The state of `oneRecordDB` after a clean `Close`. -/
def closedOneRecordDB : DBModel := (dbClose oneRecordDB).2

/-- A version-2 file with `index_offset = 0` (closed while empty, per
the spec) whose data section holds two records sharing one hash;
`record_count` honestly says 2 records. -/
def c3file : List Nat :=
  encodeHeader { magic := magicBytes, version := 2, dimension := 1,
                 recordCount := 2, indexOffset := 0, dataOffset := 256 } ++
    encodeRecord 5 [9] ++ encodeRecord 5 [8]

/-- A 256-byte file whose header carries magic `EDB\0` but version 5. -/
def c6file : List Nat :=
  encodeHeader { magic := magicBytes, version := 5, dimension := 1,
                 recordCount := 0, indexOffset := 0, dataOffset := 256 }

/-- Mapping bytes whose index section (at offset 256) holds two entries
for hash 5: first at offset 300, then at offset 400. -/
def c4section : List Nat :=
  List.replicate 256 0 ++ encodeIndexEntry 5 300 ++ encodeIndexEntry 5 400

/-- Mapping bytes whose data section holds two records for hash 5, at
offsets 256 and then 276. -/
def c4legacy : List Nat :=
  List.replicate 256 0 ++ encodeRecord 5 [9] ++ encodeRecord 5 [8]

/-- A read-path state whose cache already holds the vector for `keyA`
at heap address 0. -/
def c10hitState : RefState :=
  { heap := [[7]]
    cache := { capacity := 100, entries := [(fnv1a keyA, 0)] }
    index := []
    mmapBytes := none }

/-- A read-path state with an empty cache and one indexed record for
`keyA` in the mapping. -/
def c10missState : RefState :=
  { heap := []
    cache := { capacity := 100, entries := [] }
    index := [(fnv1a keyA, 0)]
    mmapBytes := some (encodeRecord (fnv1a keyA) [7]) }

/-! ### Byte-level lemmas -/

theorem getByte_append_left (a b : List Nat) (i : Nat) (h : i < a.length) :
    getByte (a ++ b) i = getByte a i := by
  simp only [getByte, List.getD]
  rw [List.get?_append h]

theorem getByte_append_right (a b : List Nat) (i : Nat) :
    getByte (a ++ b) (a.length + i) = getByte b i := by
  simp only [getByte, List.getD]
  rw [List.get?_append_right (by omega)]
  congr 2
  omega

theorem readU32_append_right (a b : List Nat) (i : Nat) :
    readU32 (a ++ b) (a.length + i) = readU32 b i := by
  simp only [readU32]
  rw [show a.length + i + 1 = a.length + (i + 1) by omega,
      show a.length + i + 2 = a.length + (i + 2) by omega,
      show a.length + i + 3 = a.length + (i + 3) by omega,
      getByte_append_right, getByte_append_right, getByte_append_right,
      getByte_append_right]

theorem readU64_append_right (a b : List Nat) (i : Nat) :
    readU64 (a ++ b) (a.length + i) = readU64 b i := by
  simp only [readU64]
  rw [show a.length + i + 1 = a.length + (i + 1) by omega,
      show a.length + i + 2 = a.length + (i + 2) by omega,
      show a.length + i + 3 = a.length + (i + 3) by omega,
      show a.length + i + 4 = a.length + (i + 4) by omega,
      show a.length + i + 5 = a.length + (i + 5) by omega,
      show a.length + i + 6 = a.length + (i + 6) by omega,
      show a.length + i + 7 = a.length + (i + 7) by omega]
  rw [getByte_append_right, getByte_append_right, getByte_append_right,
      getByte_append_right, getByte_append_right, getByte_append_right,
      getByte_append_right, getByte_append_right]

theorem putU32_length (n : Nat) : (putU32 n).length = 4 := rfl

theorem putU64_length (n : Nat) : (putU64 n).length = 8 := rfl

theorem readU32_putU32 (n : Nat) (rest : List Nat) (h : n < 2 ^ 32) :
    readU32 (putU32 n ++ rest) 0 = n := by
  simp only [readU32, putU32, List.cons_append, List.nil_append, getByte,
    List.getD_cons_zero, List.getD_cons_succ]
  omega

theorem readU64_putU64 (n : Nat) (rest : List Nat) (h : n < 2 ^ 64) :
    readU64 (putU64 n ++ rest) 0 = n := by
  simp only [readU64, putU64, List.cons_append, List.nil_append, getByte,
    List.getD_cons_zero, List.getD_cons_succ]
  omega

theorem flattenPut_length (v : List Nat) :
    ((v.map putU32).flatten).length = 4 * v.length := by
  induction v with
  | nil => rfl
  | cons x xs ih =>
    simp only [List.map_cons, List.flatten_cons, List.length_append, putU32_length,
      List.length_cons, ih]
    omega

theorem encodeRecord_length (h : Nat) (v : List Nat) :
    (encodeRecord h v).length = recordMetaSize + 4 * v.length := by
  simp only [encodeRecord, List.length_append, putU64_length, putU32_length,
    flattenPut_length, recordMetaSize]

theorem encodeIndexEntry_length (h o : Nat) :
    (encodeIndexEntry h o).length = 16 := rfl

theorem encodeHeader_length (h : Header) : (encodeHeader h).length = 256 := by
  simp [encodeHeader, putU32, putU64]
  omega

theorem readU32_payload (v : List Nat) (rest : List Nat) (i : Nat)
    (hi : i < v.length) (hv : ∀ x ∈ v, x < 2 ^ 32) :
    readU32 ((v.map putU32).flatten ++ rest) (4 * i) = v.getD i 0 := by
  induction v generalizing i rest with
  | nil => simp at hi
  | cons x xs ih =>
    cases i with
    | zero =>
      simpa using readU32_putU32 x _ (hv x (by simp))
    | succ i =>
      have h4 : 4 * (i + 1) = (putU32 x).length + 4 * i := by
        simp [putU32_length]; omega
      simp only [List.map_cons, List.flatten_cons, List.append_assoc, h4]
      rw [readU32_append_right]
      simpa using ih rest i (by simpa using hi) (fun x hx => hv x (by simp [hx]))

/-! ### `writeAt` lemmas -/

theorem writeAt_length (f : List Nat) (off : Nat) (buf : List Nat) :
    (writeAt f off buf).length = max (off + buf.length) f.length := by
  simp [writeAt]
  omega

theorem writeAt_end (f buf : List Nat) : writeAt f f.length buf = f ++ buf := by
  unfold writeAt
  rw [List.take_length, Nat.sub_self, List.replicate_zero,
      List.drop_eq_nil_of_le (by omega)]
  simp

theorem writeAt_zero (f buf : List Nat) :
    writeAt f 0 buf = buf ++ f.drop buf.length := by
  simp [writeAt]

theorem writeAt_decomp (f : List Nat) (off : Nat) (buf : List Nat) :
    writeAt f off buf =
      (f.take off ++ List.replicate (off - f.length) 0) ++ buf ++ f.drop (off + buf.length) := by
  simp [writeAt]

theorem writeAt_left_length (f : List Nat) (off : Nat) :
    (f.take off ++ List.replicate (off - f.length) 0).length = off := by
  simp
  omega

theorem writeAt_writeAt (f : List Nat) (off : Nat) (b1 b2 : List Nat) :
    writeAt (writeAt f off b1) (off + b1.length) b2 = writeAt f off (b1 ++ b2) := by
  have hpfx := writeAt_left_length f off
  set pfx := f.take off ++ List.replicate (off - f.length) 0 with hpfxdef
  have hg : writeAt f off b1 = (pfx ++ b1) ++ f.drop (off + b1.length) := by
    rw [writeAt_decomp]
  have hlen1 : (pfx ++ b1).length = off + b1.length := by simp [hpfx]
  have hglen : (writeAt f off b1).length = off + b1.length + (f.drop (off + b1.length)).length := by
    rw [hg]; simp [hlen1]; omega
  have htake : (writeAt f off b1).take (off + b1.length) = pfx ++ b1 := by
    rw [hg, ← hlen1, List.take_left]
  have hdrop : (writeAt f off b1).drop (off + b1.length + b2.length) =
      f.drop (off + (b1 ++ b2).length) := by
    rw [hg, show off + b1.length + b2.length = (pfx ++ b1).length + b2.length from by omega,
        List.drop_append]
    rw [List.drop_drop]
    congr 1
    simp only [List.length_append]
    omega
  rw [writeAt_decomp (writeAt f off b1), htake, hdrop]
  rw [writeAt_decomp f off (b1 ++ b2)]
  have hrep : List.replicate (off + b1.length - (writeAt f off b1).length) (0 : Nat) = [] := by
    rw [writeAt_length]
    simp
  rw [hrep]
  simp [hpfxdef]

/-! ### Association-list lemmas for the Go map model -/

theorem lookup_append (k : Nat) (l1 l2 : List (Nat × Nat)) :
    List.lookup k (l1 ++ l2) =
      match List.lookup k l1 with
      | some v => some v
      | none => List.lookup k l2 := by
  induction l1 with
  | nil => simp [List.lookup]
  | cons e l1 ih =>
    cases hbeq : k == e.1 with
    | true => simp [List.lookup, hbeq]
    | false => simp [List.lookup, hbeq, ih]

theorem lookup_map_overwrite (l : List (Nat × Nat)) (k v k' : Nat) :
    List.lookup k' (l.map (fun e => if e.1 = k then (k, v) else e)) =
      match List.lookup k' l with
      | some w => if k' = k then some v else some w
      | none => none := by
  induction l with
  | nil => simp [List.lookup]
  | cons e l ih =>
    by_cases hek : e.1 = k
    · by_cases hk : k' = k
      · subst hk
        simp only [List.map_cons]
        rw [if_pos hek]
        simp [List.lookup, beq_iff_eq.mpr hek.symm]
      · have hne : k' ≠ e.1 := fun hc => hk (hc.trans hek)
        simp only [List.map_cons]
        rw [if_pos hek]
        simp only [List.lookup, beq_eq_false_iff_ne.mpr hk, beq_eq_false_iff_ne.mpr hne, ih]
    · by_cases hke : k' = e.1
      · have hne : k' ≠ k := fun hc => hek (hke ▸ hc)
        simp only [List.map_cons]
        rw [if_neg hek]
        simp [List.lookup, beq_iff_eq.mpr hke, hne]
      · simp only [List.map_cons]
        rw [if_neg hek]
        simp only [List.lookup, beq_eq_false_iff_ne.mpr hke, ih]

theorem lookup_mapInsert_self (l : List (Nat × Nat)) (k v : Nat) :
    List.lookup k (mapInsert l k v) = some v := by
  unfold mapInsert
  by_cases hs : (List.lookup k l).isSome
  · obtain ⟨w, hw⟩ := Option.isSome_iff_exists.mp hs
    simp [lookup_map_overwrite, hw, hs]
  · rw [if_neg hs, lookup_append]
    rw [Option.not_isSome_iff_eq_none.mp hs]
    simp [List.lookup]

theorem lookup_mapInsert_ne (l : List (Nat × Nat)) (k v k' : Nat) (h : k' ≠ k) :
    List.lookup k' (mapInsert l k v) = List.lookup k' l := by
  unfold mapInsert
  by_cases hs : (List.lookup k l).isSome
  · rw [if_pos hs, lookup_map_overwrite]
    cases hw : List.lookup k' l with
    | none => rfl
    | some w => simp [h]
  · rw [if_neg hs, lookup_append]
    cases hw : List.lookup k' l with
    | none => simp [List.lookup, beq_eq_false_iff_ne.mpr h]
    | some w => rfl

theorem lookup_foldl_mapInsert (l : List (Nat × Nat)) (acc : List (Nat × Nat)) (h : Nat) :
    List.lookup h (l.foldl (fun a e => mapInsert a e.1 e.2) acc) =
      match lastAssoc l h with
      | some v => some v
      | none => List.lookup h acc := by
  induction l generalizing acc with
  | nil => simp [lastAssoc]
  | cons e l ih =>
    rw [List.foldl_cons, ih]
    cases hl : lastAssoc l h with
    | some v => simp [lastAssoc, hl]
    | none =>
      simp only [lastAssoc, hl]
      by_cases hek : e.1 = h
      · subst hek
        simp [lookup_mapInsert_self]
      · rw [lookup_mapInsert_ne _ _ _ _ (fun hc => hek hc.symm)]
        simp [beq_eq_false_iff_ne.mpr hek]

/-- Helper: two folds agree when the step functions agree on every list
element. -/
theorem foldl_congr_mem {α β : Type} (l : List α) (f g : β → α → β) (b : β)
    (h : ∀ acc, ∀ a ∈ l, f acc a = g acc a) : l.foldl f b = l.foldl g b := by
  induction l generalizing b with
  | nil => rfl
  | cons x xs ih =>
    rw [List.foldl_cons, List.foldl_cons, h b x (by simp)]
    exact ih _ (fun acc a ha => h acc a (by simp [ha]))

theorem buildIndexFromSection_eq_fold (m : List Nat) (off : Nat) :
    buildIndexFromSection m off =
      (sectionEntryList m off).foldl (fun a e => mapInsert a e.1 e.2) [] := by
  unfold buildIndexFromSection sectionEntryList
  rw [List.foldl_map]
  apply foldl_congr_mem
  intro acc i hi
  have hdiv := Nat.div_mul_le_self (m.length - off) 16
  have hrange : i < (m.length - off) / 16 := List.mem_range.mp hi
  rw [if_neg (by omega)]

theorem legacyScanGo_eq_fold (fuel : Nat) (m : List Nat) (off : Nat)
    (acc : List (Nat × Nat)) :
    legacyScanGo fuel m off acc =
      (scanEntryListGo fuel m off).foldl (fun a e => mapInsert a e.1 e.2) acc := by
  induction fuel generalizing off acc with
  | zero => rfl
  | succ fuel ih =>
    unfold legacyScanGo scanEntryListGo
    by_cases hguard : off + 16 ≤ m.length
    · rw [if_pos hguard, if_pos hguard, ih, List.foldl_cons]
    · rw [if_neg hguard, if_neg hguard, List.foldl_nil]

/-! ### C4: duplicate hashes during build-index -/

/-- C4 (corrected): in both section mode and legacy scan mode, a hash
occurring at several positions ends up bound to the offset of its LAST
occurrence in scan order — each later entry's map assignment overwrites
the earlier one — not the first occurrence as claimed. -/
theorem c4_last_occurrence_wins (m : List Nat) (off h : Nat) :
    List.lookup h (buildIndexFromSection m off) = lastAssoc (sectionEntryList m off) h ∧
    List.lookup h (buildIndexLegacy m off []) = lastAssoc (scanEntryList m off) h := by
  constructor
  · rw [buildIndexFromSection_eq_fold, lookup_foldl_mapInsert]
    cases lastAssoc (sectionEntryList m off) h with
    | some v => rfl
    | none => rfl
  · rw [buildIndexLegacy, legacyScanGo_eq_fold, ← scanEntryList, lookup_foldl_mapInsert]
    cases lastAssoc (scanEntryList m off) h with
    | some v => rfl
    | none => rfl

/-- C4 counterexample: concrete inputs where the duplicated hash 5
occurs first at offset 300 (resp. 256) and the built map instead holds
the later offset 400 (resp. 276), refuting first-occurrence retention in
both modes. -/
theorem c4_counterexample :
    sectionEntryList c4section 256 = [(5, 300), (5, 400)] ∧
    List.lookup 5 (buildIndexFromSection c4section 256) = some 400 ∧
    scanEntryList c4legacy 256 = [(5, 256), (5, 276)] ∧
    List.lookup 5 (buildIndexLegacy c4legacy 256 []) = some 276 := by decide

/-! ### C6: open-time header validation -/

theorem getByte_congr_of_take_eq (f g : List Nat) (n i : Nat) (hi : i < n)
    (h : f.take n = g.take n) : getByte f i = getByte g i := by
  simp only [getByte, List.getD]
  rw [← List.get?_take hi, h, List.get?_take hi]

/-- C6 (corrected): `open` fails with `InvalidFormat` exactly on a magic
mismatch — the header version is never validated, so any version value
is accepted; with a good magic it fails with `DimensionMismatch` exactly
when the header dimension differs from the requested one, and otherwise
succeeds.  `DecodeHeader` ignores every byte past offset 36. -/
theorem c6_open_validation (file : List Nat) (D cs : Nat)
    (hlen : headerSize ≤ file.length) :
    ((decodeHeader file).magic ≠ magicBytes → openDB file D cs = .error .invalidFormat) ∧
    ((decodeHeader file).magic = magicBytes → (decodeHeader file).dimension ≠ D →
      openDB file D cs = .error .dimensionMismatch) ∧
    ((decodeHeader file).magic = magicBytes → (decodeHeader file).dimension = D →
      (openDB file D cs).isOk = true) ∧
    (∀ other : List Nat, file.take 36 = other.take 36 →
      decodeHeader file = decodeHeader other) := by
  refine ⟨?_, ?_, ?_, ?_⟩
  · intro hmagic
    rw [openDB, if_neg (by omega), if_pos hmagic]
  · intro hmagic hdim
    rw [openDB, if_neg (by omega), if_neg (by simpa using hmagic), if_pos hdim]
  · intro hmagic hdim
    rw [openDB, if_neg (by omega), if_neg (by simpa using hmagic),
      if_neg (by simpa using hdim)]
    by_cases hsz : headerSize < file.length
    · rw [if_pos hsz]
      rfl
    · rw [if_neg hsz]
      rfl
  · intro other h
    have hb : ∀ i, i < 36 → getByte file i = getByte other i :=
      fun i hi => getByte_congr_of_take_eq file other 36 i hi h
    simp only [decodeHeader, readU32, readU64]
    rw [hb 0 (by omega), hb 1 (by omega), hb 2 (by omega), hb 3 (by omega),
      hb 4 (by omega), hb (4 + 1) (by omega), hb (4 + 2) (by omega), hb (4 + 3) (by omega),
      hb 8 (by omega), hb (8 + 1) (by omega), hb (8 + 2) (by omega), hb (8 + 3) (by omega),
      hb 12 (by omega), hb (12 + 1) (by omega), hb (12 + 2) (by omega), hb (12 + 3) (by omega),
      hb (12 + 4) (by omega), hb (12 + 5) (by omega), hb (12 + 6) (by omega),
      hb (12 + 7) (by omega),
      hb 20 (by omega), hb (20 + 1) (by omega), hb (20 + 2) (by omega), hb (20 + 3) (by omega),
      hb (20 + 4) (by omega), hb (20 + 5) (by omega), hb (20 + 6) (by omega),
      hb (20 + 7) (by omega),
      hb 28 (by omega), hb (28 + 1) (by omega), hb (28 + 2) (by omega), hb (28 + 3) (by omega),
      hb (28 + 4) (by omega), hb (28 + 5) (by omega), hb (28 + 6) (by omega),
      hb (28 + 7) (by omega)]

/-- C6 counterexample: a file whose header carries the correct magic but
version 5 — neither 1 nor 2 — opens successfully instead of failing with
`InvalidFormat`. -/
theorem c6_counterexample :
    (decodeHeader c6file).magic = magicBytes ∧
    (decodeHeader c6file).version = 5 ∧
    (openDB c6file 1 100).isOk = true := by decide

/-- C6 witness: a well-formed fresh header opens successfully at the
matching dimension. -/
theorem c6_open_witness : (openDB (encodeHeader (newHeader 3)) 3 100).isOk = true :=
  (c6_open_validation (encodeHeader (newHeader 3)) 3 100
    (by simp [headerSize, encodeHeader_length])).2.2.1 (by decide) (by decide)

/-! ### C5: behaviour after Close -/

/-- C5 (corrected): the engine has no `Closed` error and tracks no
closed state.  After `Close`, an insert whose key hash is already
indexed still returns success with no effect, while operations that
reach the descriptor (insert of a new key, a second close) fail with the
underlying operating-system I/O error, not a dedicated `Closed` error. -/
theorem c5_no_closed_error (db : DBModel) (key v : List Nat)
    (hclosed : db.fileClosed = true) :
    (v.length = db.dimension → (List.lookup (fnv1a key) db.index).isSome = true →
      dbInsert db key v = (.ok (), db)) ∧
    (v.length = db.dimension → List.lookup (fnv1a key) db.index = none →
      dbInsert db key v = (.error .io, db)) ∧
    dbClose db = (.error .io, db) := by
  refine ⟨?_, ?_, ?_⟩
  · intro h1 h2
    obtain ⟨o, ho⟩ := Option.isSome_iff_exists.mp h2
    simp [dbInsert, h1, ho]
  · intro h1 h2
    simp [dbInsert, h1, h2, hclosed]
  · simp [dbClose, hclosed]

/-- C5 counterexample: after a clean `Close`, inserting the already
present key succeeds (and leaves the engine unchanged) instead of
failing with a `Closed` error. -/
theorem c5_counterexample :
    closedOneRecordDB.fileClosed = true ∧
    dbInsert closedOneRecordDB keyA [9] = (.ok (), closedOneRecordDB) := by decide

/-- C5 witness: the amended behaviour at the concrete closed engine. -/
theorem c5_witness :
    dbInsert closedOneRecordDB keyA [9] = (.ok (), closedOneRecordDB) ∧
    dbClose closedOneRecordDB = (.error .io, closedOneRecordDB) :=
  ⟨(c5_no_closed_error closedOneRecordDB keyA [9] (by decide)).1 (by decide) (by decide),
   (c5_no_closed_error closedOneRecordDB keyA [9] (by decide)).2.2⟩

/-! ### C7: dimension enforcement on insert -/

/-- C7 (confirmed): inserting a vector whose length differs from the
store dimension fails with `DimensionMismatch` and leaves the engine
state — file bytes, index, record count, data end — untouched; a
subsequent `Get` of a key absent from the index and the cache fails with
`NotFound`. -/
theorem c7_dimension_mismatch_frame (db : DBModel) (key v : List Nat)
    (hv : v.length ≠ db.dimension) :
    dbInsert db key v = (.error .dimensionMismatch, db) ∧
    (List.lookup (fnv1a key) db.index = none →
      List.lookup (fnv1a key) db.cache.entries = none →
      (dbGet db key).1 = .error .notFound) := by
  constructor
  · simp [dbInsert, hv]
  · intro h1 h2
    simp [dbGet, lruGet, h1, h2]

/-- C7 witness: the concrete scenario of the spec — dimension 3,
two-element insert rejected, the key then not found. -/
theorem c7_witness :
    dbInsert (createDB 3 100) [120] [1, 2] = (.error .dimensionMismatch, createDB 3 100) ∧
    (dbGet (createDB 3 100) [120]).1 = .error .notFound :=
  ⟨(c7_dimension_mismatch_frame (createDB 3 100) [120] [1, 2] (by decide)).1,
   (c7_dimension_mismatch_frame (createDB 3 100) [120] [1, 2] (by decide)).2
     (by decide) (by decide)⟩

/-! ### C8: idempotent insert -/

/-- C8 (amended): for vectors of the store dimension, insert is
idempotent per key — a repeated insert returns success and leaves the
engine in exactly the state produced by the first insert, and more
generally any length-D insert under an already-indexed key hash is a
successful no-op.  (Wrong-length vectors are excluded: the dimension
check precedes the idempotency check.) -/
theorem c8_idempotent_insert (db : DBModel) (key v : List Nat)
    (hlen : v.length = db.dimension) :
    ((List.lookup (fnv1a key) db.index).isSome = true → dbInsert db key v = (.ok (), db)) ∧
    (∀ db2, dbInsert db key v = (.ok (), db2) → dbInsert db2 key v = (.ok (), db2)) := by
  have hnop : ∀ d : DBModel, v.length = d.dimension →
      (List.lookup (fnv1a key) d.index).isSome = true → dbInsert d key v = (.ok (), d) := by
    intro d hd hs
    obtain ⟨o, ho⟩ := Option.isSome_iff_exists.mp hs
    simp [dbInsert, hd, ho]
  refine ⟨hnop db hlen, ?_⟩
  intro db2 hfirst
  cases hm : List.lookup (fnv1a key) db.index with
  | some o =>
    have : dbInsert db key v = (.ok (), db) := hnop db hlen (by simp [hm])
    rw [this] at hfirst
    have hdb2 : db = db2 := congrArg Prod.snd hfirst
    exact hdb2 ▸ this
  | none =>
    cases hcl : db.fileClosed with
    | true =>
      rw [show dbInsert db key v = (.error .io, db) from by simp [dbInsert, hlen, hm, hcl]]
        at hfirst
      exact absurd (congrArg Prod.fst hfirst) (by simp)
    | false =>
      have hins : dbInsert db key v =
          (.ok (), (dbInsert db key v).2) := by
        simp only [dbInsert, hlen]
        simp [hm, hcl]
      have hdb2 : db2 = (dbInsert db key v).2 := by
        rw [hins] at hfirst
        exact (congrArg Prod.snd hfirst).symm
      have hidx : db2.index = db.index ++ [(fnv1a key, db.dataEnd)] := by
        rw [hdb2]
        simp [dbInsert, hlen, hm, hcl]
      have hdim : db2.dimension = db.dimension := by
        rw [hdb2]
        simp [dbInsert, hlen, hm, hcl]
      apply hnop db2 (by omega)
      rw [hidx, lookup_append, hm]
      simp [List.lookup]

/-- C8 counterexample: the key is already indexed, yet inserting a
wrong-length vector under it fails with `DimensionMismatch` rather than
returning success — the "any vector" generalization of the claim is
false. -/
theorem c8_counterexample :
    (List.lookup (fnv1a keyA) oneRecordDB.index).isSome = true ∧
    (dbInsert oneRecordDB keyA []).1 = .error .dimensionMismatch := by decide

/-- C8 witness: re-inserting under the present key is a successful
no-op at the concrete one-record store. -/
theorem c8_witness : dbInsert oneRecordDB keyA [7] = (.ok (), oneRecordDB) :=
  (c8_idempotent_insert oneRecordDB keyA [7] (by decide)).1 (by decide)

/-! ### C3: the index section written on Close -/

theorem entriesBytes_length (entries : List (Nat × Nat)) :
    (entriesBytes entries).length = 16 * entries.length := by
  induction entries with
  | nil => rfl
  | cons e l ih =>
    simp only [entriesBytes, List.map_cons, List.flatten_cons, List.length_append,
      List.length_cons] at *
    rw [ih, encodeIndexEntry_length]
    omega

theorem writeAt_nil (f : List Nat) (off : Nat) (hoff : off ≤ f.length) :
    writeAt f off [] = f := by
  unfold writeAt
  rw [show off - f.length = 0 by omega]
  simp

theorem writeEntries_eq (entries : List (Nat × Nat)) (f : List Nat) (off : Nat)
    (hoff : off ≤ f.length) :
    writeEntries f off entries = writeAt f off (entriesBytes entries) := by
  induction entries generalizing f off with
  | nil =>
    rw [writeEntries, entriesBytes]
    simp [writeAt_nil f off hoff]
  | cons e rest ih =>
    rw [writeEntries]
    rw [ih _ _ (by rw [writeAt_length, encodeIndexEntry_length]; omega)]
    rw [show off + 16 = off + (encodeIndexEntry e.1 e.2).length from by
          rw [encodeIndexEntry_length]]
    rw [writeAt_writeAt]
    simp [entriesBytes]

theorem decodeIndexEntry_encode (h o : Nat) (rest : List Nat)
    (hh : h < 2 ^ 64) (ho : o < 2 ^ 64) :
    decodeIndexEntry ((encodeIndexEntry h o ++ rest).take 16) = (h, o) := by
  have h16 : (encodeIndexEntry h o ++ rest).take 16 = encodeIndexEntry h o := by
    rw [show 16 = (encodeIndexEntry h o).length from (encodeIndexEntry_length h o).symm,
      List.take_left]
  rw [h16]
  unfold decodeIndexEntry encodeIndexEntry
  have h1 : readU64 (putU64 h ++ putU64 o) 0 = h := readU64_putU64 h (putU64 o) hh
  have h2 : readU64 (putU64 h ++ putU64 o) 8 = o := by
    have hr := readU64_append_right (putU64 h) (putU64 o) 0
    rw [putU64_length] at hr
    have ho2 : readU64 (putU64 o) 0 = o := by
      have := readU64_putU64 o [] ho
      simpa using this
    simpa [ho2] using hr
  rw [h1, h2]

theorem entriesBytes_drop (entries : List (Nat × Nat)) (i : Nat)
    (hi : i < entries.length) :
    (entriesBytes entries).drop (16 * i) = entriesBytes (entries.drop i) := by
  induction entries generalizing i with
  | nil => simp at hi
  | cons e rest ih =>
    cases i with
    | zero => simp
    | succ i =>
      have : 16 * (i + 1) = (encodeIndexEntry e.1 e.2).length + 16 * i := by
        rw [encodeIndexEntry_length]; omega
      simp only [entriesBytes, List.map_cons, List.flatten_cons, this, List.drop_append,
        List.drop_succ_cons]
      exact ih i (by simpa using hi)

/-- C3 (amended): a clean `Close` of an open version-2 engine with a
non-empty in-memory index writes one 16-byte entry per INDEX entry
contiguously at `data_end_offset`, truncates the file to
`data_end_offset + 16 * |index|`, points `header.index_offset` at the
section, and the rewritten tail decodes back to exactly the index's
entries — `record_count` many whenever the header count equals the index
size (always true for stores built through the API from creation, but
not for a legacy-scanned file with duplicate record hashes). -/
theorem c3_close_writes_index_section (db : DBModel)
    (hopen : db.fileClosed = false)
    (hne : db.index ≠ [])
    (hver : 2 ≤ db.header.version)
    (hde : headerSize ≤ db.dataEnd)
    (hdlen : db.dataEnd ≤ db.file.length)
    (hbound : ∀ e ∈ db.index, e.1 < 2 ^ 64 ∧ e.2 < 2 ^ 64) :
    (dbClose db).1 = .ok () ∧
    (dbClose db).2.header.indexOffset = db.dataEnd ∧
    (dbClose db).2.file.length = db.dataEnd + 16 * db.index.length ∧
    (dbClose db).2.file.drop db.dataEnd = entriesBytes db.index ∧
    ∀ i, (hi : i < db.index.length) →
      decodeIndexEntry (((dbClose db).2.file.drop (db.dataEnd + 16 * i)).take 16) =
        db.index.get ⟨i, hi⟩ := by
  have hlenpos : 0 < db.index.length := List.length_pos.mpr hne
  have hclose : dbClose db =
      (.ok (), { db with
        file := writeAt ((writeEntries db.file db.dataEnd db.index).take
          (db.dataEnd + 16 * db.index.length)) 0
          (encodeHeader { db.header with indexOffset := db.dataEnd })
        header := { db.header with indexOffset := db.dataEnd }
        fileClosed := true }) := by
    rw [dbClose, if_neg (by simp [hopen]), if_pos ⟨hlenpos, hver⟩]
  -- shape of the truncated file
  have hf1 : writeEntries db.file db.dataEnd db.index =
      (db.file.take db.dataEnd ++ entriesBytes db.index) ++
        db.file.drop (db.dataEnd + (entriesBytes db.index).length) := by
    rw [writeEntries_eq _ _ _ hdlen, writeAt_decomp,
      show db.dataEnd - db.file.length = 0 by omega]
    simp
  have htakelen : (db.file.take db.dataEnd).length = db.dataEnd := by
    simp
    omega
  have hf2 : (writeEntries db.file db.dataEnd db.index).take
      (db.dataEnd + 16 * db.index.length) =
      db.file.take db.dataEnd ++ entriesBytes db.index := by
    rw [hf1]
    rw [show db.dataEnd + 16 * db.index.length =
        (db.file.take db.dataEnd ++ entriesBytes db.index).length from by
      simp [entriesBytes_length]
      omega]
    exact List.take_left _ _
  have hf2len : (db.file.take db.dataEnd ++ entriesBytes db.index).length =
      db.dataEnd + 16 * db.index.length := by
    simp [entriesBytes_length]
    omega
  have hhdrlen := encodeHeader_length { db.header with indexOffset := db.dataEnd }
  have hf3 : (dbClose db).2.file =
      encodeHeader { db.header with indexOffset := db.dataEnd } ++
        (db.file.take db.dataEnd ++ entriesBytes db.index).drop 256 := by
    rw [hclose]
    simp only [hf2]
    rw [writeAt_zero, hhdrlen]
  have h256 : (256 : Nat) ≤ db.dataEnd := by simpa [headerSize] using hde
  have hf3len : (dbClose db).2.file.length = db.dataEnd + 16 * db.index.length := by
    rw [hf3]
    simp only [List.length_append, List.length_drop, hf2len, hhdrlen]
    omega
  have hdropgen : ∀ (t eb : List Nat), t.length = db.dataEnd →
      (t ++ eb).drop db.dataEnd = eb := by
    intro t eb ht
    rw [← ht]
    exact List.drop_left t eb
  have hdroptail : (dbClose db).2.file.drop db.dataEnd = entriesBytes db.index := by
    rw [hf3]
    rw [List.drop_append_eq_append_drop,
        List.drop_eq_nil_of_le (by rw [hhdrlen]; omega), hhdrlen]
    rw [List.nil_append, List.drop_drop]
    simp only [Nat.sub_add_cancel h256, Nat.add_sub_cancel' h256]
    exact hdropgen _ _ htakelen
  have hentry : ∀ i, (hi : i < db.index.length) →
      decodeIndexEntry (((dbClose db).2.file.drop (db.dataEnd + 16 * i)).take 16) =
        db.index.get ⟨i, hi⟩ := by
    intro i hi
    have hshift : (dbClose db).2.file.drop (db.dataEnd + 16 * i) =
        (entriesBytes db.index).drop (16 * i) := by
      calc (dbClose db).2.file.drop (db.dataEnd + 16 * i)
          = ((dbClose db).2.file.drop db.dataEnd).drop (16 * i) := by
            rw [Nat.add_comm db.dataEnd (16 * i), List.drop_drop,
              Nat.add_comm (16 * i) db.dataEnd]
        _ = (entriesBytes db.index).drop (16 * i) := by rw [hdroptail]
    rw [hshift, entriesBytes_drop _ _ hi, List.drop_eq_getElem_cons hi]
    simp only [entriesBytes, List.map_cons, List.flatten_cons]
    have hb := hbound (db.index.get ⟨i, hi⟩) (List.get_mem db.index i hi)
    rw [List.get_eq_getElem] at hb
    rw [decodeIndexEntry_encode _ _ _ hb.1 hb.2]
    simp [List.get_eq_getElem]
  refine ⟨by rw [hclose], by rw [hclose], hf3len, hdroptail, hentry⟩

/-- C3 witness: closing the concrete one-record store writes its single
index entry at the data end and the tail decodes back to the index. -/
theorem c3_close_witness :
    (dbClose oneRecordDB).1 = .ok () ∧
    (dbClose oneRecordDB).2.header.indexOffset = oneRecordDB.dataEnd ∧
    (dbClose oneRecordDB).2.file.drop oneRecordDB.dataEnd = entriesBytes oneRecordDB.index := by
  have h := c3_close_writes_index_section oneRecordDB (by decide) (by decide)
    (by decide) (by decide) (by decide) (by decide)
  exact ⟨h.1, h.2.1, h.2.2.2.1⟩

/-- C3 counterexample: opening a spec-legal version-2 file whose data
section holds two records with the same hash (`record_count = 2`, legacy
scan deduplicates to one index entry) and closing it cleanly leaves a
tail of exactly 1 index entry, not `record_count = 2`. -/
theorem c3_counterexample :
    (openDB c3file 1 100).isOk = true ∧
    (openDB c3file 1 100).map (fun db =>
      let db2 := (dbClose db).2
      ((dbClose db).1.isOk, db2.header.recordCount,
        (db2.file.length - db2.header.indexOffset) / 16)) = .ok (true, 2, 1) := by
  decide

/-! ### C1: insert-then-get round trip on a fresh store -/

attribute [ext] LRU DBModel

theorem fnv1a_lt (key : List Nat) : fnv1a key < 2 ^ 64 := by
  have haux : ∀ (l : List Nat) (h : Nat), h < 2 ^ 64 → l.foldl fnvStep h < 2 ^ 64 := by
    intro l
    induction l with
    | nil => intro h hh; simpa using hh
    | cons b rest ih =>
      intro h hh
      rw [List.foldl_cons]
      exact ih _ (Nat.mod_lt _ (by norm_num))
  exact haux key fnvOffsetBasis (by norm_num [fnvOffsetBasis])

theorem recordsBytes_nil : recordsBytes [] = [] := rfl

theorem recordsBytes_cons (p : List Nat × List Nat) (ps : List (List Nat × List Nat)) :
    recordsBytes (p :: ps) = encodeRecord (fnv1a p.1) p.2 ++ recordsBytes ps := by
  simp [recordsBytes]

theorem recordsBytes_append (a b : List (List Nat × List Nat)) :
    recordsBytes (a ++ b) = recordsBytes a ++ recordsBytes b := by
  simp [recordsBytes]

theorem indexOfPairs_append_one (p : List Nat × List Nat)
    (ps : List (List Nat × List Nat)) (off : Nat) :
    indexOfPairs (ps ++ [p]) off =
      indexOfPairs ps off ++ [(fnv1a p.1, off + (recordsBytes ps).length)] := by
  induction ps generalizing off with
  | nil => simp [indexOfPairs, recordsBytes]
  | cons q ps ih =>
    simp only [List.cons_append, indexOfPairs, List.append_eq]
    rw [ih, recordsBytes_cons, List.length_append, encodeRecord_length]
    rw [show off + (recordMetaSize + 4 * q.2.length) + (recordsBytes ps).length =
        off + (recordMetaSize + 4 * q.2.length + (recordsBytes ps).length) from by omega]

theorem lookup_indexOfPairs_none (ps : List (List Nat × List Nat)) (off h : Nat)
    (hne : ∀ q ∈ ps, fnv1a q.1 ≠ h) :
    List.lookup h (indexOfPairs ps off) = none := by
  induction ps generalizing off with
  | nil => rfl
  | cons q ps ih =>
    rw [indexOfPairs]
    have hq : (h == fnv1a q.1) = false :=
      beq_eq_false_iff_ne.mpr (Ne.symm (hne q (by simp)))
    simp only [List.lookup, hq]
    exact ih _ (fun r hr => hne r (by simp [hr]))

theorem lookup_indexOfPairs_at (pre : List (List Nat × List Nat))
    (p : List Nat × List Nat) (post : List (List Nat × List Nat)) (off : Nat)
    (hne : ∀ q ∈ pre, fnv1a q.1 ≠ fnv1a p.1) :
    List.lookup (fnv1a p.1) (indexOfPairs (pre ++ p :: post) off) =
      some (off + (recordsBytes pre).length) := by
  induction pre generalizing off with
  | nil => simp [indexOfPairs, List.lookup, recordsBytes]
  | cons q pre ih =>
    rw [List.cons_append, indexOfPairs]
    have hq : (fnv1a p.1 == fnv1a q.1) = false :=
      beq_eq_false_iff_ne.mpr (Ne.symm (hne q (by simp)))
    simp only [List.lookup, hq]
    rw [ih _ (fun r hr => hne r (by simp [hr]))]
    rw [recordsBytes_cons]
    simp only [List.length_append, encodeRecord_length, Option.some.injEq]
    omega

theorem freshState_file_eq (D cs : Nat) (ps : List (List Nat × List Nat)) :
    (freshState D cs ps).file = encodeHeader (newHeader D) ++ recordsBytes ps := rfl

theorem freshState_dataEnd_eq_length (D cs : Nat) (ps : List (List Nat × List Nat)) :
    (freshState D cs ps).dataEnd = (freshState D cs ps).file.length := by
  rw [freshState_file_eq]
  simp [freshState, encodeHeader_length, headerSize]

/-- Reduction of `Insert` on the fresh-key path of any open store. -/
theorem dbInsert_eq_of_new (db : DBModel) (key v : List Nat)
    (hlen : v.length = db.dimension)
    (hlook : List.lookup (fnv1a key) db.index = none)
    (hopen : db.fileClosed = false) :
    dbInsert db key v = (.ok (),
      { db with
        file := writeAt db.file db.dataEnd (encodeRecord (fnv1a key) v)
        index := db.index ++ [(fnv1a key, db.dataEnd)]
        header := { db.header with recordCount := db.header.recordCount + 1 }
        dataEnd := db.dataEnd + (recordMetaSize + 4 * v.length)
        mmap := if headerSize <
            (writeAt db.file db.dataEnd (encodeRecord (fnv1a key) v)).length
          then some (writeAt db.file db.dataEnd (encodeRecord (fnv1a key) v))
          else none }) := by
  simp [dbInsert, hlen, hlook, hopen]

theorem dbInsert_fresh (D cs : Nat) (done : List (List Nat × List Nat))
    (p : List Nat × List Nat) (hlen : p.2.length = D)
    (hnew : ∀ q ∈ done, fnv1a q.1 ≠ fnv1a p.1) :
    dbInsert (freshState D cs done) p.1 p.2 = (.ok (), freshState D cs (done ++ [p])) := by
  have hfl : (freshState D cs done).file.length =
      headerSize + (recordsBytes done).length := by
    rw [freshState_file_eq]
    simp [encodeHeader_length, headerSize]
  have hwr : writeAt (freshState D cs done).file (freshState D cs done).dataEnd
      (encodeRecord (fnv1a p.1) p.2) = encodeHeader (newHeader D) ++ recordsBytes (done ++ [p]) := by
    rw [freshState_dataEnd_eq_length, writeAt_end, freshState_file_eq,
      recordsBytes_append, recordsBytes_cons]
    simp [recordsBytes_nil, List.append_assoc]
  have hwrlen : headerSize <
      (writeAt (freshState D cs done).file (freshState D cs done).dataEnd
        (encodeRecord (fnv1a p.1) p.2)).length := by
    rw [hwr]
    simp only [List.length_append, encodeHeader_length, recordsBytes_append,
      recordsBytes_cons, recordsBytes_nil, encodeRecord_length, headerSize,
      List.append_nil, recordMetaSize]
    omega
  rw [dbInsert_eq_of_new _ _ _ (by simpa [freshState] using hlen)
    (lookup_indexOfPairs_none done headerSize (fnv1a p.1) hnew) rfl]
  refine congrArg _ ?_
  ext : 1
  · rw [hwr, freshState_file_eq]
  · rw [if_pos hwrlen, hwr]
    have : done ++ [p] ≠ [] := by simp
    simp [freshState, this]
  · simp [freshState]
  · show (freshState D cs done).index ++ [(fnv1a p.1, (freshState D cs done).dataEnd)] =
      indexOfPairs (done ++ [p]) headerSize
    rw [indexOfPairs_append_one]
    show indexOfPairs done headerSize ++ _ = indexOfPairs done headerSize ++ _
    simp [freshState]
  · rfl
  · show (freshState D cs done).dataEnd + (recordMetaSize + 4 * p.2.length) =
      headerSize + (recordsBytes (done ++ [p])).length
    simp only [freshState, recordsBytes_append, recordsBytes_cons, recordsBytes_nil,
      List.length_append, encodeRecord_length, List.append_nil]
    omega
  · rfl
  · rfl

theorem insertAll_fresh (D cs : Nat) (ps done : List (List Nat × List Nat))
    (hlen : ∀ p ∈ done ++ ps, p.2.length = D)
    (hdist : ((done ++ ps).map (fun p => fnv1a p.1)).Pairwise (· ≠ ·)) :
    insertAll (freshState D cs done) ps = .ok (freshState D cs (done ++ ps)) := by
  induction ps generalizing done with
  | nil => simp [insertAll]
  | cons p ps ih =>
    have hnew : ∀ q ∈ done, fnv1a q.1 ≠ fnv1a p.1 := by
      intro q hq
      rw [List.map_append, List.pairwise_append] at hdist
      exact hdist.2.2 (fnv1a q.1) (List.mem_map_of_mem _ hq) (fnv1a p.1) (by simp)
    rw [insertAll, dbInsert_fresh D cs done p (hlen p (by simp)) hnew]
    have hlen2 : ∀ q ∈ (done ++ [p]) ++ ps, q.2.length = D := by
      intro q hq
      apply hlen
      simpa [List.append_assoc] using hq
    have hdist2 : (((done ++ [p]) ++ ps).map (fun r => fnv1a r.1)).Pairwise (· ≠ ·) := by
      simpa [List.append_assoc] using hdist
    show insertAll (freshState D cs (done ++ [p])) ps =
      Except.ok (freshState D cs (done ++ p :: ps))
    rw [show done ++ p :: ps = (done ++ [p]) ++ ps from by simp]
    exact ih (done ++ [p]) hlen2 hdist2

/-- Byte-level extraction of one record embedded in a larger buffer. -/
theorem readRecord_at (A B : List Nat) (h : Nat) (v : List Nat)
    (hvlen : v.length < 2 ^ 32) (hv : ∀ x ∈ v, x < 2 ^ 32) :
    readU32 (A ++ (encodeRecord h v ++ B)) (A.length + 8) = v.length ∧
    ∀ i, i < v.length →
      readU32 (A ++ (encodeRecord h v ++ B)) (A.length + (16 + 4 * i)) = v.getD i 0 := by
  constructor
  · rw [readU32_append_right]
    rw [show encodeRecord h v ++ B =
        putU64 h ++ (putU32 v.length ++ (putU32 0 ++ ((v.map putU32).flatten ++ B))) from by
      simp [encodeRecord]]
    have hr := readU32_append_right (putU64 h)
      (putU32 v.length ++ (putU32 0 ++ ((v.map putU32).flatten ++ B))) 0
    rw [putU64_length] at hr
    simpa [readU32_putU32 _ _ hvlen] using hr
  · intro i hi
    rw [readU32_append_right]
    rw [show encodeRecord h v ++ B =
        (putU64 h ++ putU32 v.length ++ putU32 0) ++ ((v.map putU32).flatten ++ B) from by
      simp [encodeRecord]]
    have hplen : (putU64 h ++ putU32 v.length ++ putU32 0).length = 16 := by
      simp [putU64_length, putU32_length]
    have hr := readU32_append_right (putU64 h ++ putU32 v.length ++ putU32 0)
      ((v.map putU32).flatten ++ B) (4 * i)
    rw [hplen] at hr
    rw [hr]
    exact readU32_payload v B i hi hv

theorem dbGet_fresh (D cs : Nat) (pre post : List (List Nat × List Nat))
    (p : List Nat × List Nat) (key : List Nat)
    (hne : ∀ q ∈ pre, fnv1a q.1 ≠ fnv1a p.1)
    (hp2len : p.2.length < 2 ^ 32)
    (hp2bits : ∀ x ∈ p.2, x < 2 ^ 32)
    (hkey : fnv1a key = fnv1a p.1) :
    (dbGet (freshState D cs (pre ++ p :: post)) key).1 = .ok p.2 := by
  have hps : pre ++ p :: post ≠ [] := by simp
  have hcache : lruGet (freshState D cs (pre ++ p :: post)).cache (fnv1a key) =
      (none, (freshState D cs (pre ++ p :: post)).cache) := rfl
  have hoff : List.lookup (fnv1a key) (freshState D cs (pre ++ p :: post)).index =
      some (headerSize + (recordsBytes pre).length) := by
    show List.lookup (fnv1a key) (indexOfPairs (pre ++ p :: post) headerSize) = _
    rw [hkey]
    exact lookup_indexOfPairs_at pre p post headerSize hne
  have hfile : (freshState D cs (pre ++ p :: post)).file =
      (encodeHeader (newHeader D) ++ recordsBytes pre) ++
        (encodeRecord (fnv1a p.1) p.2 ++ recordsBytes post) := by
    rw [freshState_file_eq, recordsBytes_append, recordsBytes_cons]
    simp [List.append_assoc]
  have hAlen : (encodeHeader (newHeader D) ++ recordsBytes pre).length =
      headerSize + (recordsBytes pre).length := by
    simp [encodeHeader_length, headerSize]
  obtain ⟨hdim, hpayload⟩ := readRecord_at (encodeHeader (newHeader D) ++ recordsBytes pre)
    (recordsBytes post) (fnv1a p.1) p.2 hp2len hp2bits
  have hmm : (freshState D cs (pre ++ p :: post)).mmap =
      some (freshState D cs (pre ++ p :: post)).file := by
    simp [freshState, hps]
  have hread : readVector (freshState D cs (pre ++ p :: post))
      (headerSize + (recordsBytes pre).length) = .ok p.2 := by
    simp only [readVector, hmm]
    have hdim2 : readU32 (freshState D cs (pre ++ p :: post)).file
        (headerSize + (recordsBytes pre).length + 8) = p.2.length := by
      rw [hfile, ← hAlen]
      exact hdim
    rw [hdim2]
    have hvec : (List.range p.2.length).map (fun i =>
        readU32 (freshState D cs (pre ++ p :: post)).file
          (headerSize + (recordsBytes pre).length + recordMetaSize + 4 * i)) = p.2 := by
      apply List.ext_getElem
      · simp
      · intro i h1 h2
        simp only [List.getElem_map, List.getElem_range]
        have hp := hpayload i (by simpa using h2)
        rw [hfile]
        rw [show headerSize + (recordsBytes pre).length + recordMetaSize + 4 * i =
            (encodeHeader (newHeader D) ++ recordsBytes pre).length + (16 + 4 * i) from by
          rw [hAlen, recordMetaSize]; omega]
        rw [hp]
        exact List.getD_eq_getElem p.2 0 h2
    rw [hvec]
  simp only [dbGet, hcache, hoff, hread]

/-- C1 (amended): for any valid dimension and any insertion sequence
whose keys have pairwise DISTINCT 64-bit FNV-1a hashes, inserting all
pairs into a fresh engine succeeds and `Get` then returns every inserted
vector bitwise exactly.  (Distinct keys alone do not suffice: the store
identifies keys solely by their 64-bit hash.) -/
theorem c1_insert_get_distinct_hashes (D cs : Nat) (ps : List (List Nat × List Nat))
    (hD1 : 1 ≤ D) (hD : D < 2 ^ 32)
    (hlen : ∀ p ∈ ps, p.2.length = D)
    (hbits : ∀ p ∈ ps, ∀ x ∈ p.2, x < 2 ^ 32)
    (hdist : (ps.map (fun p => fnv1a p.1)).Pairwise (· ≠ ·)) :
    ∃ db, insertAll (createDB D cs) ps = .ok db ∧
      ∀ p ∈ ps, (dbGet db p.1).1 = .ok p.2 := by
  have hcf : createDB D cs = freshState D cs [] := by
    simp [createDB, freshState, recordsBytes, headerSize]
    exact ⟨rfl, rfl⟩
  refine ⟨freshState D cs ps, ?_, ?_⟩
  · rw [hcf]
    exact insertAll_fresh D cs ps [] (by simpa using hlen) (by simpa using hdist)
  · intro p hp
    obtain ⟨pre, post, rfl⟩ := List.append_of_mem hp
    have hne : ∀ q ∈ pre, fnv1a q.1 ≠ fnv1a p.1 := by
      intro q hq
      rw [List.map_append, List.pairwise_append] at hdist
      exact hdist.2.2 (fnv1a q.1) (List.mem_map_of_mem _ hq) (fnv1a p.1) (by simp)
    exact dbGet_fresh D cs pre post p p.1 hne
      (by rw [hlen p (by simp)]; exact hD)
      (hbits p (by simp)) rfl

/-- C1 witness: two single-byte keys with distinct hashes round-trip
their vectors bitwise through a fresh dimension-2 store. -/
theorem c1_insert_get_witness :
    ∃ db, insertAll (createDB 2 100) [([97], [5, 6]), ([98], [7, 8])] = .ok db ∧
      ∀ p ∈ [(([97] : List Nat), ([5, 6] : List Nat)), ([98], [7, 8])],
        (dbGet db p.1).1 = .ok p.2 :=
  c1_insert_get_distinct_hashes 2 100 [([97], [5, 6]), ([98], [7, 8])]
    (by decide) (by norm_num) (by decide) (by decide) (by decide)

/-- C1 counterexample: the claim quantified over DISTINCT KEYS is false.
The key space (arbitrary byte strings) is infinite while the persisted
identity is only the 64-bit FNV-1a hash, so by the pigeonhole principle
two distinct keys collide; inserting both and reading the second back
returns the first key's vector, not its own. -/
theorem c1_claim_counterexample : ¬ c1Claim := by
  intro hc
  haveI : Infinite {l : List Nat // ∀ b ∈ l, b < 256} :=
    Infinite.of_injective
      (fun n => (⟨List.replicate n 0, by
        intro b hb
        rw [List.eq_of_mem_replicate hb]
        omega⟩ : {l : List Nat // ∀ b ∈ l, b < 256}))
      (fun a b hab => by
        simpa using congrArg (fun t => t.1.length) hab)
  obtain ⟨x, y, hxy, hfxy⟩ := Finite.exists_ne_map_eq_of_infinite
    (fun t : {l : List Nat // ∀ b ∈ l, b < 256} =>
      (⟨fnv1a t.1, fnv1a_lt t.1⟩ : Fin (2 ^ 64)))
  have hkeys : x.1 ≠ y.1 := fun h => hxy (Subtype.ext h)
  have hhash : fnv1a x.1 = fnv1a y.1 := congrArg Fin.val hfxy
  obtain ⟨db, hrun, hget⟩ := hc 1 le_rfl 100 [(x.1, [0]), (y.1, [1])]
    (by
      intro p hp
      simp only [List.mem_cons, List.not_mem_nil, or_false] at hp
      rcases hp with rfl | rfl
      · exact ⟨x.2, rfl, by intro z hz; simp at hz; omega⟩
      · exact ⟨y.2, rfl, by intro z hz; simp at hz; omega⟩)
    (by
      constructor
      · intro q hq
        simp at hq
        subst hq
        exact hkeys
      · simp)
  -- the run actually produced the one-record state for the first key
  have hstep1 : dbInsert (freshState 1 100 []) x.1 [0] =
      (.ok (), freshState 1 100 [(x.1, [0])]) := by
    have := dbInsert_fresh 1 100 [] (x.1, [0]) rfl (by simp)
    simpa using this
  have hstep2 : dbInsert (freshState 1 100 [(x.1, [0])]) y.1 [1] =
      (.ok (), freshState 1 100 [(x.1, [0])]) := by
    have hlook : List.lookup (fnv1a y.1) (indexOfPairs [(x.1, [0])] headerSize) =
        some headerSize := by
      rw [← hhash]
      simpa using lookup_indexOfPairs_at [] (x.1, [0]) [] headerSize (by simp)
    simp [dbInsert, hlook, freshState]
  have hrun2 : insertAll (createDB 1 100) [(x.1, [0]), (y.1, [1])] =
      .ok (freshState 1 100 [(x.1, [0])]) := by
    have hcf : createDB 1 100 = freshState 1 100 [] := by
      simp [createDB, freshState, recordsBytes, headerSize]
      exact ⟨rfl, rfl⟩
    rw [hcf, insertAll, hstep1]
    show insertAll (freshState 1 100 [(x.1, [0])]) [(y.1, [1])] = _
    rw [insertAll, hstep2]
    rfl
  have hdb : db = freshState 1 100 [(x.1, [0])] := by
    rw [hrun] at hrun2
    exact Except.ok.inj hrun2.symm |>.symm
  have hwrong : (dbGet db y.1).1 = .ok [0] := by
    rw [hdb]
    exact dbGet_fresh 1 100 [] [] (x.1, [0]) y.1 (by simp) (by norm_num)
      (by intro z hz; simp at hz; omega) hhash.symm
  have hright : (dbGet db y.1).1 = .ok [1] := hget (y.1, [1]) (by simp)
  rw [hwrong] at hright
  simp at hright

/-! ### C2: FindSimilar characterization -/

theorem foldl_bestStep_spec (q : List ℝ) (recs : List (List ℝ)) (acc : List ℝ × ℝ) :
    (recs.foldl (bestStep q) acc).2 = (recs.map (cosineSimilarity q)).foldl max acc.2 ∧
    (recs.foldl (bestStep q) acc = acc ∨
      ((recs.foldl (bestStep q) acc).1 ∈ recs ∧
        cosineSimilarity q (recs.foldl (bestStep q) acc).1 = (recs.foldl (bestStep q) acc).2 ∧
        acc.2 < (recs.foldl (bestStep q) acc).2)) := by
  induction recs generalizing acc with
  | nil => exact ⟨rfl, Or.inl rfl⟩
  | cons v recs ih =>
    rw [List.foldl_cons, List.map_cons, List.foldl_cons]
    obtain ⟨ih1, ih2⟩ := ih (bestStep q acc v)
    have hstep2 : (bestStep q acc v).2 = max acc.2 (cosineSimilarity q v) := by
      unfold bestStep
      by_cases hlt : acc.2 < cosineSimilarity q v
      · rw [if_pos hlt]
        exact (max_eq_right hlt.le).symm
      · rw [if_neg hlt]
        exact (max_eq_left (not_lt.mp hlt)).symm
    refine ⟨by rw [ih1, hstep2], ?_⟩
    rcases ih2 with heq | ⟨hmem, hcos, hlt2⟩
    · rw [heq]
      unfold bestStep
      by_cases hlt : acc.2 < cosineSimilarity q v
      · rw [if_pos hlt]
        exact Or.inr ⟨by simp, by simp, by simpa using hlt⟩
      · rw [if_neg hlt]
        exact Or.inl rfl
    · refine Or.inr ⟨List.mem_cons_of_mem _ hmem, hcos, lt_of_le_of_lt ?_ hlt2⟩
      rw [hstep2]
      exact le_max_left _ _

/-- C2 (amended): `FindSimilar` fails with `DimensionMismatch` exactly
when the query length differs from D.  Otherwise it tracks the maximum
cosine score over all stored records starting from `(nil, -1)` with
STRICT improvement, and returns the tracked pair when the best score
reaches the threshold, `NotFound` otherwise.  Whenever some record
scores strictly above −1 the returned vector is a stored record with the
best score, but when no record does (every score equals −1, or the store
is empty) the tracked vector is still the nil vector and is what gets
returned for thresholds ≤ −1. -/
theorem c2_find_similar_characterization (records : List (List ℝ)) (q : List ℝ)
    (t : ℝ) (D : Nat) :
    (q.length ≠ D → findSimilar records q t D = .error .dimensionMismatch) ∧
    (q.length = D →
      findSimilar records q t D =
        (if t ≤ (findBest records q).2 then .ok (findBest records q)
         else .error .notFound) ∧
      (findBest records q).2 = (records.map (cosineSimilarity q)).foldl max (-1) ∧
      (-1 < (findBest records q).2 → (findBest records q).1 ∈ records ∧
        cosineSimilarity q (findBest records q).1 = (findBest records q).2) ∧
      ((findBest records q).2 = -1 → (findBest records q).1 = [])) := by
  have hspec := foldl_bestStep_spec q records ([], -1)
  rw [show records.foldl (bestStep q) ([], -1) = findBest records q from rfl] at hspec
  constructor
  · intro hq
    rw [findSimilar, if_pos hq]
  · intro hq
    refine ⟨?_, ?_, ?_, ?_⟩
    · rw [findSimilar, if_neg (by simp [hq])]
    · simpa using hspec.1
    · intro hgt
      rcases hspec.2 with heq | ⟨hmem, hcos, _⟩
      · rw [heq] at hgt
        simp at hgt
      · exact ⟨hmem, hcos⟩
    · intro hm1
      rcases hspec.2 with heq | ⟨_, _, hlt⟩
      · rw [heq]
      · rw [hm1] at hlt
        simp at hlt

/-- C2 witness: a store holding `[1]` queried with `[1]` at threshold 0
returns the stored vector with score 1. -/
theorem c2_find_similar_witness :
    findSimilar [[(1 : ℝ)]] [1] 0 1 = .ok ([1], 1) := by
  have h := (c2_find_similar_characterization [[(1 : ℝ)]] [1] 0 1).2 rfl
  have hcos : cosineSimilarity [(1 : ℝ)] [1] = 1 := by
    unfold cosineSimilarity
    norm_num [Real.sqrt_one]
  have hbest : findBest [[(1 : ℝ)]] [1] = ([1], 1) := by
    unfold findBest bestStep
    norm_num [hcos]
  rw [h.1, hbest]
  norm_num

/-- C2 counterexample: with one stored vector `[-1]`, query `[1]` and
threshold −1, the best (and only) cosine score is −1, achieved by the
stored vector; yet `FindSimilar` returns the nil vector, not the stored
one, because the tracker only replaces its initial `(nil, -1)` pair on a
STRICT improvement. -/
theorem c2_counterexample :
    findSimilar [[(-1 : ℝ)]] [1] (-1) 1 = .ok ([], -1) ∧
    ([] : List ℝ) ∉ [[(-1 : ℝ)]] := by
  have hcos : cosineSimilarity [(1 : ℝ)] [-1] = -1 := by
    unfold cosineSimilarity
    norm_num [Real.sqrt_one]
  constructor
  · unfold findSimilar findBest bestStep
    norm_num [hcos]
  · simp

/-! ### C9: LRU correctness -/

theorem map_fst_eraseP {α : Type} (l : List (Nat × α)) (k : Nat) :
    (l.eraseP (fun e => e.1 == k)).map Prod.fst = (l.map Prod.fst).erase k := by
  induction l with
  | nil => rfl
  | cons e l ih =>
    cases hbeq : (e.1 == k) with
    | true => simp [List.eraseP_cons, List.erase_cons, hbeq]
    | false => simp [List.eraseP_cons, List.erase_cons, hbeq, ih]

theorem lookup_eq_none_iff {α : Type} (l : List (Nat × α)) (k : Nat) :
    List.lookup k l = none ↔ k ∉ l.map Prod.fst := by
  induction l with
  | nil => simp [List.lookup]
  | cons e l ih =>
    cases hbeq : (k == e.1) with
    | true =>
      have := beq_iff_eq.mp hbeq
      simp [List.lookup, hbeq, this]
    | false =>
      have := beq_eq_false_iff_ne.mp hbeq
      simp [List.lookup, hbeq, ih, this]

theorem take_erase_of_mem : ∀ (l : List Nat) (C k : Nat), k ∈ l.take C →
    (l.take C).erase k = (l.erase k).take (C - 1) := by
  intro l
  induction l with
  | nil => intro C k h; simp at h
  | cons x xs ih =>
    intro C k h
    cases C with
    | zero => simp at h
    | succ C =>
      rw [List.take_succ_cons] at h ⊢
      by_cases hk : k = x
      · subst hk
        rw [List.erase_cons_head, List.erase_cons_head]
        simp
      · have hmem : k ∈ xs.take C := by
          rcases List.mem_cons.mp h with h1 | h1
          · exact absurd h1 hk
          · exact h1
        cases C with
        | zero => simp at hmem
        | succ m =>
          rw [List.erase_cons_tail (by simpa using fun hc => hk hc.symm),
            List.erase_cons_tail (by simpa using fun hc => hk hc.symm)]
          rw [Nat.succ_sub_one, List.take_succ_cons]
          have := ih (m + 1) k hmem
          rw [Nat.succ_sub_one] at this
          rw [this]

theorem take_erase_of_not_mem : ∀ (l : List Nat) (C k : Nat), k ∉ l.take C →
    (l.erase k).take (C - 1) = l.take (C - 1) := by
  intro l
  induction l with
  | nil => intro C k h; simp
  | cons x xs ih =>
    intro C k h
    cases C with
    | zero =>
      simp
    | succ C =>
      rw [List.take_succ_cons] at h
      have hkx : ¬ k = x := fun hc => h (by simp [hc])
      have hmem : k ∉ xs.take C := fun hc => h (by simp [hc])
      rw [List.erase_cons_tail (by simpa using fun hc => hkx hc.symm)]
      rw [Nat.succ_sub_one]
      cases C with
      | zero => simp
      | succ m =>
        rw [List.take_succ_cons, List.take_succ_cons]
        have := ih (m + 1) k hmem
        rw [Nat.succ_sub_one] at this
        rw [this]

theorem dropLast_take_of_le (l : List Nat) (C : Nat) (h : C ≤ l.length) :
    (l.take C).dropLast = l.take (C - 1) := by
  rw [List.dropLast_eq_take]
  rw [List.take_take, List.length_take]
  congr 1
  omega

theorem applyOp_capacity (c : LRU (List Nat)) (op : CacheOp) :
    (applyOp c op).capacity = c.capacity := by
  cases op with
  | put k v =>
    cases hlk : List.lookup k c.entries with
    | some w => simp only [applyOp, lruPut, hlk]
    | none =>
      simp only [applyOp, lruPut, hlk]
      split
      · rfl
      · rfl
  | get k =>
    cases hlk : List.lookup k c.entries with
    | some w => simp only [applyOp, lruGet, hlk]
    | none => simp only [applyOp, lruGet, hlk]

theorem applyOp_keys (C : Nat) (st : LRU (List Nat)) (rec : List Nat) (op : CacheOp)
    (hcap : st.capacity = C)
    (hkeys : st.entries.map Prod.fst = rec.take C) :
    (applyOp st op).entries.map Prod.fst =
      (match op with
       | .put k _ => k :: rec.erase k
       | .get k => if k ∈ rec.take C then k :: rec.erase k else rec).take C := by
  have hmove : ∀ (k : Nat) (u : List Nat), k ∈ rec.take C →
      ((k, u) :: st.entries.eraseP (fun e => e.1 == k)).map Prod.fst =
        (k :: rec.erase k).take C := by
    intro k u hkmem
    have hCpos : 0 < C := by
      by_contra hc
      push_neg at hc
      interval_cases C
      simp at hkmem
    obtain ⟨m, rfl⟩ : ∃ m, C = m + 1 := ⟨C - 1, by omega⟩
    rw [List.map_cons, map_fst_eraseP, hkeys, List.take_succ_cons]
    show k :: (rec.take (m + 1)).erase k = k :: (rec.erase k).take m
    rw [take_erase_of_mem rec (m + 1) k hkmem, Nat.succ_sub_one]
  cases op with
  | get k =>
    cases hlk : List.lookup k st.entries with
    | some w =>
      have hkmem : k ∈ rec.take C := by
        rw [← hkeys]
        by_contra hmem
        rw [← lookup_eq_none_iff] at hmem
        rw [hmem] at hlk
        exact Option.noConfusion hlk
      simp only [applyOp, lruGet, hlk]
      rw [if_pos hkmem]
      exact hmove k w hkmem
    | none =>
      have hkmem : k ∉ rec.take C := by
        rw [← hkeys]
        exact (lookup_eq_none_iff _ _).mp hlk
      simp only [applyOp, lruGet, hlk]
      rw [if_neg hkmem]
      exact hkeys
  | put k v =>
    cases hlk : List.lookup k st.entries with
    | some w =>
      simp only [applyOp, lruPut, hlk]
      apply hmove k v
      rw [← hkeys]
      by_contra hmem
      rw [← lookup_eq_none_iff] at hmem
      rw [hmem] at hlk
      exact Option.noConfusion hlk
    | none =>
      have hkmem : k ∉ rec.take C := by
        rw [← hkeys]
        exact (lookup_eq_none_iff _ _).mp hlk
      have hkeylen : st.entries.length = (rec.take C).length := by
        rw [← hkeys, List.length_map]
      simp only [applyOp, lruPut, hlk]
      by_cases hcapc : st.capacity < ((k, v) :: st.entries).length
      · rw [if_pos hcapc]
        show List.map Prod.fst (((k, v) :: st.entries).dropLast) =
          (k :: rec.erase k).take C
        have hfull : st.entries.length = C := by
          have h1 : st.capacity < st.entries.length + 1 := by simpa using hcapc
          have h2 : st.entries.length = min C rec.length := by
            rw [hkeylen, List.length_take]
          omega
        cases hC0 : C with
        | zero =>
          have hst : st.entries = [] := by
            rw [← List.length_eq_zero]
            omega
          simp [hst]
        | succ m =>
          have hrecC : m + 1 ≤ rec.length := by
            rw [hkeylen, List.length_take] at hfull
            omega
          have hne2 : st.entries ≠ [] := by
            intro hnil
            rw [hnil] at hfull
            simp at hfull
            omega
          rw [List.dropLast_cons_of_ne_nil hne2, List.map_cons, List.map_dropLast, hkeys]
          rw [hC0, List.take_succ_cons]
          rw [dropLast_take_of_le rec (m + 1) hrecC, Nat.succ_sub_one]
          rw [show (rec.erase k).take m = (rec.erase k).take ((m + 1) - 1) from by
            rw [Nat.succ_sub_one]]
          rw [take_erase_of_not_mem rec (m + 1) k (hC0 ▸ hkmem), Nat.succ_sub_one]
      · rw [if_neg hcapc]
        show List.map Prod.fst ((k, v) :: st.entries) = (k :: rec.erase k).take C
        have hroom : st.entries.length + 1 ≤ C := by
          have h1 : ¬ st.capacity < st.entries.length + 1 := by simpa using hcapc
          omega
        have hreclen : rec.length ≤ C - 1 := by
          have h2 : st.entries.length = min C rec.length := by
            rw [hkeylen, List.length_take]
          omega
        obtain ⟨m, rfl⟩ : ∃ m, C = m + 1 := ⟨C - 1, by omega⟩
        rw [List.take_succ_cons, List.map_cons, hkeys]
        rw [show (rec.erase k).take m = (rec.erase k).take ((m + 1) - 1) from by
          rw [Nat.succ_sub_one]]
        rw [take_erase_of_not_mem rec (m + 1) k hkmem, Nat.succ_sub_one]
        rw [List.take_of_length_le (by omega), List.take_of_length_le (by omega)]

theorem runOps_invariant (C : Nat) (ops : List CacheOp) :
    ∀ (st : LRU (List Nat)) (rec : List Nat),
      st.capacity = C →
      st.entries.map Prod.fst = rec.take C →
      (ops.foldl applyOp st).capacity = C ∧
      (ops.foldl applyOp st).entries.map Prod.fst =
        (ops.foldl
          (fun rec op =>
            match op with
            | .put k _ => k :: rec.erase k
            | .get k => if k ∈ rec.take C then k :: rec.erase k else rec)
          rec).take C := by
  induction ops with
  | nil =>
    intro st rec h1 h2
    exact ⟨h1, h2⟩
  | cons op ops ih =>
    intro st rec h1 h2
    rw [List.foldl_cons, List.foldl_cons]
    exact ih (applyOp st op) _ (by rw [applyOp_capacity, h1])
      (applyOp_keys C st rec op h1 h2)

theorem getLast?_map {α β : Type} (f : α → β) (l : List α) :
    (l.map f).getLast? = l.getLast?.map f := by
  induction l with
  | nil => rfl
  | cons a l ih =>
    cases l with
    | nil => rfl
    | cons b l2 =>
      rw [List.map_cons, List.map_cons, List.getLast?_cons_cons, ← List.map_cons, ih,
        List.getLast?_cons_cons]

theorem lruPut_evict_getLast {α : Type} (c : LRU α) (k : Nat) (v : α) (e : Nat)
    (hC : 1 ≤ c.capacity) (hev : (lruPut c k v).2 = some e) :
    (c.entries.map Prod.fst).getLast? = some e := by
  cases hlk : List.lookup k c.entries with
  | some w =>
    simp only [lruPut, hlk] at hev
    exact Option.noConfusion hev
  | none =>
    simp only [lruPut, hlk] at hev
    by_cases hcapc : c.capacity < ((k, v) :: c.entries).length
    · rw [if_pos hcapc] at hev
      simp only at hev
      have hne : c.entries ≠ [] := by
        intro hnil
        rw [hnil] at hcapc
        simp at hcapc
        omega
      obtain ⟨b, l2, hent⟩ : ∃ b l2, c.entries = b :: l2 := by
        cases hent : c.entries with
        | nil => exact absurd hent hne
        | cons b l2 => exact ⟨b, l2, rfl⟩
      rw [hent] at hev ⊢
      rw [List.getLast?_cons_cons] at hev
      rw [getLast?_map]
      exact hev
    · rw [if_neg hcapc] at hev
      simp at hev

/-- C9 (confirmed): after any finite sequence of `put`/`get` on a fresh
capacity-C cache (C ≥ 1), the present keys — in recency order — are
exactly the first C entries of the most-recently-touched distinct-key
list, where a touch is a `put` or a `get` that hits; in particular the
SET of present keys is the C most-recently-touched distinct keys, or all
of them if fewer.  Moreover any eviction the next `put` performs removes
the entry at the back of that order: the one whose most recent touch is
oldest. -/
theorem c9_lru_correctness (C : Nat) (hC : 1 ≤ C) (ops : List CacheOp) :
    (runOps (emptyLRU C) ops).entries.map Prod.fst = (touchOrder C ops).take C ∧
    (∀ k v e, (lruPut (runOps (emptyLRU C) ops) k v).2 = some e →
      ((runOps (emptyLRU C) ops).entries.map Prod.fst).getLast? = some e) := by
  have hinv := runOps_invariant C ops (emptyLRU C) [] rfl (by simp [emptyLRU])
  constructor
  · exact hinv.2
  · intro k v e hev
    exact lruPut_evict_getLast _ k v e (hinv.1.symm ▸ hC) hev

/-- C9 witness: the spec's concrete scenario — capacity 2, put 1, put 2,
get 1, put 3 — leaves exactly the keys 3 and 1, in recency order. -/
theorem c9_witness :
    (runOps (emptyLRU 2)
      [CacheOp.put 1 [10], CacheOp.put 2 [20], CacheOp.get 1, CacheOp.put 3 [30]]).entries.map
        Prod.fst = [3, 1] := by
  rw [(c9_lru_correctness 2 (by decide)
    [CacheOp.put 1 [10], CacheOp.put 2 [20], CacheOp.get 1, CacheOp.put 3 [30]]).1]
  decide

/-! ### C10: slice identity on the read path -/

theorem lookup_mem_snd {α : Type} (l : List (Nat × α)) (k : Nat) (w : α)
    (h : List.lookup k l = some w) : w ∈ l.map Prod.snd := by
  induction l with
  | nil => simp [List.lookup] at h
  | cons e l ih =>
    cases hbeq : (k == e.1) with
    | true =>
      simp only [List.lookup, hbeq] at h
      rw [Option.some.injEq] at h
      subst h
      simp
    | false =>
      simp only [List.lookup, hbeq] at h
      exact List.mem_cons_of_mem _ (ih h)

/-- C10 (amended): `Get` does NOT return owned copies.  On a cache hit
it returns the very address the cache stores (the Go code returns the
cached slice itself), so the caller aliases the cache's storage.  On a
miss, the record is decoded into a FRESH allocation — a deep copy
independent of the mmap — but that same single allocation is both placed
in the cache and handed to the caller, so caller and cache alias each
other (only the mmap is never aliased). -/
theorem c10_aliasing (st : RefState) (key : List Nat)
    (hcap : 1 ≤ st.cache.capacity) :
    (∀ a, (lruGet st.cache (fnv1a key)).1 = some a →
      (dbGetRef st key).1 = .ok a ∧ a ∈ st.cache.entries.map Prod.snd) ∧
    (∀ off m, (lruGet st.cache (fnv1a key)).1 = none →
      List.lookup (fnv1a key) st.index = some off →
      st.mmapBytes = some m →
      (dbGetRef st key).1 = .ok st.heap.length ∧
      (dbGetRef st key).2.heap = st.heap ++ [decodeVec m off] ∧
      (fnv1a key, st.heap.length) ∈ (dbGetRef st key).2.cache.entries) := by
  constructor
  · intro a ha
    cases hlk : List.lookup (fnv1a key) st.cache.entries with
    | none =>
      simp only [lruGet, hlk] at ha
      exact Option.noConfusion ha
    | some w =>
      simp only [lruGet, hlk] at ha
      rw [Option.some.injEq] at ha
      subst ha
      constructor
      · simp only [dbGetRef, lruGet, hlk]
      · exact lookup_mem_snd _ _ _ hlk
  · intro off m h1 h2 h3
    cases hlk : List.lookup (fnv1a key) st.cache.entries with
    | some w =>
      simp only [lruGet, hlk] at h1
      exact Option.noConfusion h1
    | none =>
      refine ⟨?_, ?_, ?_⟩
      · simp only [dbGetRef, lruGet, hlk, h2, h3]
      · simp only [dbGetRef, lruGet, hlk, h2, h3]
        rfl
      · simp only [dbGetRef, lruGet, hlk, h2, h3, lruPut]
        by_cases hcapc : st.cache.capacity < ((fnv1a key, st.heap.length) :: st.cache.entries).length
        · rw [if_pos hcapc]
          cases hent : st.cache.entries with
          | nil =>
            rw [hent] at hcapc
            simp at hcapc
            omega
          | cons b l2 =>
            show (fnv1a key, st.heap.length) ∈
              ((fnv1a key, st.heap.length) :: b :: l2).dropLast
            rw [List.dropLast_cons_of_ne_nil (by simp)]
            simp
        · rw [if_neg hcapc]
          simp

/-- C10 counterexample: on a cache hit, the address `Get` returns is the
address the cache itself stores — the claimed owned copy is not made. -/
theorem c10_counterexample :
    (dbGetRef c10hitState keyA).1 = .ok 0 ∧
    0 ∈ (dbGetRef c10hitState keyA).2.cache.entries.map Prod.snd ∧
    0 ∈ c10hitState.cache.entries.map Prod.snd := by decide

/-- C10 witness: the amended behaviour at a concrete miss — the decoded
vector is a fresh allocation whose address is both returned and cached. -/
theorem c10_witness :
    (dbGetRef c10missState keyA).1 = .ok 0 ∧
    (dbGetRef c10missState keyA).2.heap =
      c10missState.heap ++ [decodeVec (encodeRecord (fnv1a keyA) [7]) 0] ∧
    (fnv1a keyA, 0) ∈ (dbGetRef c10missState keyA).2.cache.entries := by
  have h := (c10_aliasing c10missState keyA (by decide)).2 0
    (encodeRecord (fnv1a keyA) [7]) (by decide) (by decide) (by decide)
  exact ⟨h.1, h.2.1, h.2.2⟩

end VectorLite
